import Mathlib

/-!
Verification of the `donothing` procedure library (Go) against its
natural-language specification.

The development shallowly embeds the relevant Go code:

* Go strings are modelled as `List Char` (`GoStr`); for the ASCII data the
  claims exercise this is byte-for-byte faithful.
* The step tree (`Step`), input/output declarations (`InputDef`,
  `OutputDef`), the consistency checker (`Procedure.Check`), the long
  description normalisation (`Step.Long` / `Step.trimCommonIndent`), the
  anchor derivation (`StepTemplateData.Anchor`), and the interactive walker
  (`Procedure.ExecuteStep` / `Procedure.prompt`) are translated from the
  source function by function.
* Stateful loops are expressed by explicit state passing; the one loop whose
  termination depends on operator input (`prompt`) takes explicit fuel and
  returns `none` when the fuel runs out, so that non-termination of the Go
  loop is observable as `= none` for every fuel value.
-/

namespace Donothing

/-- Go strings, modelled as lists of characters. -/
abbrev GoStr := List Char

/-- Conversion helper: a Lean string literal to the `GoStr` model. -/
def gs (s : String) : GoStr := s.toList

/-- Whitespace according to Go's `regexp` class `\s`, i.e. `[\t\n\f\r ]`. -/
def goWs (c : Char) : Bool :=
  c = ' ' || c = '\t' || c = '\n' || c = '\x0c' || c = '\r'

/-- Whitespace according to Go's `unicode.IsSpace` restricted to Latin-1
(the alphabet the claims exercise): `\t \n \v \f \r ' ' U+0085 U+00A0`.
Used by `strings.TrimSpace`. -/
def goUnicodeWs (c : Char) : Bool :=
  goWs c || c = '\x0b' || c = '\x85' || c = '\xa0'

/-- `strings.TrimSpace`: drop leading and trailing whitespace. -/
def trimSpace (s : GoStr) : GoStr :=
  ((s.dropWhile goUnicodeWs).reverse.dropWhile goUnicodeWs).reverse

/-- `strings.Split(s, sep)` for a single-character separator. -/
def splitChar (sep : Char) : GoStr → List GoStr
  | [] => [[]]
  | c :: cs =>
    match splitChar sep cs with
    | [] => [[c]]
    | l :: ls => if c = sep then [] :: l :: ls else (c :: l) :: ls

/-- `strings.Join(ls, sep)` for a single-character separator. -/
def joinChar (sep : Char) : List GoStr → GoStr
  | [] => []
  | [l] => l
  | l :: ls => l ++ sep :: joinChar sep ls

/-- The longest common prefix of two strings. -/
def lcp : GoStr → GoStr → GoStr
  | a :: as, b :: bs => if a = b then a :: lcp as bs else []
  | _, _ => []

/-- Go's `<` on strings is byte-wise lexicographic; on the ASCII fragment we
model, that is code-point lexicographic order.  `lexLe a b` is `a <= b`. -/
def lexLe : GoStr → GoStr → Bool
  | [], _ => true
  | _ :: _, [] => false
  | a :: as, b :: bs => if a = b then lexLe as bs else decide (a < b)

/-- Insert into a `lexLe`-sorted list, keeping it sorted. -/
def insertSorted (x : GoStr) : List GoStr → List GoStr
  | [] => [x]
  | y :: ys => if lexLe x y then x :: y :: ys else y :: insertSorted x ys

/-- `sort.Strings`: sorting under byte-lexicographic order.  Since the order
is total and antisymmetric up to equality, the sorted permutation of a list
of strings is unique, so any correct sort models Go's (unstable) sort;
insertion sort keeps the model's evaluation purely structural. -/
def sortStrings : List GoStr → List GoStr
  | [] => []
  | x :: xs => insertSorted x (sortStrings xs)

/-- `strings.Replace(s, pat, rep, 1)`: replace the first (leftmost)
occurrence of `pat` in `s` by `rep`; `s` unchanged if there is none.
For `pat = ""` Go replaces the empty string at position 0, i.e. prepends
`rep`, which the first branch also does. -/
def replaceFirst (s pat rep : GoStr) : GoStr :=
  if pat.isPrefixOf s then rep ++ s.drop pat.length
  else
    match s with
    | [] => []
    | c :: cs => c :: replaceFirst cs pat rep

/-- `strings.Replace(s, pat, rep, -1)` for a non-empty pattern: replace every
(leftmost, non-overlapping) occurrence of `pat` by `rep`.  The only pattern
the source uses is `"@@"`.  For an empty pattern Go instead inserts `rep`
around every character; that case never occurs in the source and the model
returns `s` unchanged. -/
def replaceAllGo (pat rep : GoStr) : Nat → GoStr → GoStr
  | _, [] => []
  | 0, s => s
  | fuel + 1, c :: cs =>
    if pat.isPrefixOf (c :: cs) then
      rep ++ replaceAllGo pat rep fuel ((c :: cs).drop pat.length)
    else c :: replaceAllGo pat rep fuel cs

/-- See `replaceAllGo`: with a non-empty pattern every step of the scan
consumes at least one character, so `s.length` steps always complete the
scan and the fuel branch is unreachable. -/
def replaceAll (s pat rep : GoStr) : GoStr :=
  if pat = [] then s
  else replaceAllGo pat rep s.length s

/-! ## The data model: input/output declarations and the step tree

Translated from `input.go` / `output.go` (the variant with exported fields,
which is the one `Procedure.Check` reads) and `step.go`. -/

/-- `InputDef` — a value a step can receive (`input.go`). -/
structure InputDef where
  ValueType : GoStr
  Name : GoStr
  Required : Bool
deriving DecidableEq

/-- `NewInputDef` (`input.go`). -/
def NewInputDef (valueType name : GoStr) (required : Bool) : InputDef :=
  ⟨valueType, name, required⟩

/-- `OutputDef` — a value a step outputs (`output.go`). -/
structure OutputDef where
  ValueType : GoStr
  Name : GoStr
  Short : GoStr
deriving DecidableEq

/-- `NewOutputDef` (`output.go`). -/
def NewOutputDef (valueType name short : GoStr) : OutputDef :=
  ⟨valueType, name, short⟩

/-- A `Step` (`step.go`): name, short and long description, input and output
declarations, and the ordered list of child steps.  The Go struct's `parent`
back-pointer is not a field here; it is reconstructed during traversal (it
only feeds `AbsoluteName`, `Depth` and `Pos`, which walk the parent chain). -/
inductive Step where
  | mk (name short long : GoStr) (inputs : List InputDef)
       (outputs : List OutputDef) (children : List Step)

def Step.name : Step → GoStr | .mk n _ _ _ _ _ => n
def Step.short : Step → GoStr | .mk _ s _ _ _ _ => s
def Step.long : Step → GoStr | .mk _ _ l _ _ _ => l
def Step.inputs : Step → List InputDef | .mk _ _ _ i _ _ => i
def Step.outputs : Step → List OutputDef | .mk _ _ _ _ o _ => o
def Step.children : Step → List Step | .mk _ _ _ _ _ c => c

/-- `Step.AbsoluteName` for a step whose parent chain yields the absolute
name `pa` (`none` for the root): `strings.Join([parentAbs, name], ".")`. -/
def absNameOf (pa : Option GoStr) (name : GoStr) : GoStr :=
  match pa with
  | none => name
  | some p => p ++ '.' :: name

/-- One visited node of the canonical pre-order depth-first walk
(`Step.Walk`), together with the derived data the source recomputes through
the parent chain: the parent's absolute name, the node's absolute name, its
depth and its position (`Step.AbsoluteName`, `Step.Depth`, `Step.Pos`). -/
structure Ctx where
  par : Option GoStr
  abs : GoStr
  depth : Nat
  pos : List Nat
  step : Step

mutual
/-- The pre-order depth-first visit sequence of `Step.Walk`: the node itself,
then each child's subtree in child order. -/
def preorderStep (pa : Option GoStr) (depth : Nat) (pos : List Nat) : Step → List Ctx
  | .mk n sh lo ins outs cs =>
    let abs := absNameOf pa n
    ⟨pa, abs, depth, pos, .mk n sh lo ins outs cs⟩ ::
      preorderChildren abs depth pos 0 cs

def preorderChildren (pa : GoStr) (depth : Nat) (pos : List Nat) (i : Nat) :
    List Step → List Ctx
  | [] => []
  | c :: cs =>
    preorderStep (some pa) (depth + 1) (pos ++ [i]) c ++
      preorderChildren pa depth pos (i + 1) cs
end

/-- The walk of a whole procedure: `NewProcedure` names the root step, and
every walk starts at `pcd.rootStep` with no parent, depth 0, empty position. -/
def preorder (root : Step) : List Ctx := preorderStep none 0 [] root

/-! ## The consistency checker — `Procedure.Check` (`procedure.go`)

`Check` walks the tree once with a callback that accumulates problems and
maintains two maps: `steps` (absolute names already seen; only membership is
ever read) and `outputs` (output name → most recently declared `OutputDef`
with that name).  The callback always returns `nil`, so the walk itself never
fails and the wrapped walk-error branch of `Check` is unreachable; the
embedding is therefore a total fold. -/

/-- The problems `Check` can append, one constructor per `append` site, each
carrying the data interpolated into the corresponding message. -/
inductive Problem where
  | rootNoName
  | childNoName (parentAbs : GoStr)
  | dupName (absName : GoStr)
  | noShort (absName : GoStr)
  | inputNoMatch (inputName absName : GoStr)
  | inputTypeMismatch (inputName absName inputType outputName outputType : GoStr)
deriving DecidableEq

/-- The checker's mutable state: the key set of the `steps` map, the
`outputs` map (most recent binding first, so `lookup` returns the latest
write, like a Go map), and the accumulated problem list. -/
structure CheckState where
  steps : List GoStr
  outputs : List (GoStr × OutputDef)
  problems : List Problem

/-- The problems the `Check` callback records for one visited step, given the
map states on entry.  Mirrors the callback body in source order:
(1) `absName[len(absName)-1:] == "."` (root/child variants) — note the Go
slice would panic on an empty absolute name, which cannot occur because
`NewProcedure` names the root `"root"`; (2) duplicate absolute name;
(3) empty `Short`; (4) each input against the `outputs` map. -/
def visitProblems (seen : List GoStr) (outs : List (GoStr × OutputDef))
    (par : Option GoStr) (abs : GoStr) (s : Step) : List Problem :=
  (if abs.getLast? = some '.' then
    match par with
    | none => [.rootNoName]
    | some pa => [.childNoName pa]
   else []) ++
  (if abs ∈ seen then [.dupName abs] else []) ++
  (if s.short = [] then [.noShort abs] else []) ++
  (s.inputs.map (fun i =>
    match outs.lookup i.Name with
    | none => [Problem.inputNoMatch i.Name abs]
    | some o =>
      if o.ValueType ≠ i.ValueType then
        [Problem.inputTypeMismatch i.Name abs i.ValueType o.Name o.ValueType]
      else [])).flatten

/-- After the checks, the callback writes `steps[absName] = step` and
`outputs[out.Name] = out` for each declared output, in declaration order. -/
def pushOuts (outs : List (GoStr × OutputDef)) (l : List OutputDef) :
    List (GoStr × OutputDef) :=
  l.foldl (fun acc o => (o.Name, o) :: acc) outs

/-- One execution of the `Check` walk callback. -/
def checkVisit (st : CheckState) (par : Option GoStr) (abs : GoStr)
    (s : Step) : CheckState :=
  { steps := abs :: st.steps
    outputs := pushOuts st.outputs s.outputs
    problems := st.problems ++ visitProblems st.steps st.outputs par abs s }

mutual
/-- The `Check` walk over a subtree (pre-order, callback at the node, then
the children in order). -/
def checkWalkStep (st : CheckState) (pa : Option GoStr) : Step → CheckState
  | .mk n sh lo ins outs cs =>
    let abs := absNameOf pa n
    checkWalkChildren (checkVisit st pa abs (.mk n sh lo ins outs cs)) abs cs

def checkWalkChildren (st : CheckState) (pa : GoStr) : List Step → CheckState
  | [] => st
  | c :: cs => checkWalkChildren (checkWalkStep st (some pa) c) pa cs
end

/-- The full problem list `Procedure.Check` accumulates over the walk. -/
def CheckProblems (root : Step) : List Problem :=
  (checkWalkStep ⟨[], [], []⟩ none root).problems

/-- `Procedure.Check`: the returned pair, with the summary error modelled as
a `Bool` (`true` iff the returned error is non-nil).  The walk-error branch
is unreachable (the callback always returns `nil`), so the result is
`(problems, error)` if problems were found and `([], nil)` otherwise. -/
def Check (root : Step) : List Problem × Bool :=
  let problems := CheckProblems root
  if problems.length > 0 then (problems, true) else ([], false)

/-! ### Linearizing the `Check` walk

`Step.Walk` is pre-order depth-first; since the `Check` callback never
returns an error, the tree walk is the same as folding the callback over the
pre-order visit list. -/

/-- The `Check` walk as a fold over a visit list. -/
def checkLinear (st : CheckState) : List Ctx → CheckState
  | [] => st
  | e :: es => checkLinear (checkVisit st e.par e.abs e.step) es

theorem checkLinear_append (l₁ l₂ : List Ctx) (st : CheckState) :
    checkLinear st (l₁ ++ l₂) = checkLinear (checkLinear st l₁) l₂ := by
  induction l₁ generalizing st with
  | nil => rfl
  | cons e es ih => simp [checkLinear, ih]

mutual
theorem checkWalkStep_linear (s : Step) (st : CheckState) (pa : Option GoStr)
    (d : Nat) (pos : List Nat) :
    checkWalkStep st pa s = checkLinear st (preorderStep pa d pos s) := by
  cases s with
  | mk n sh lo ins outs cs =>
    simp only [checkWalkStep, preorderStep, checkLinear]
    exact checkWalkChildren_linear cs _ _ _ _ 0

theorem checkWalkChildren_linear (cs : List Step) (st : CheckState)
    (pa : GoStr) (d : Nat) (pos : List Nat) (i : Nat) :
    checkWalkChildren st pa cs = checkLinear st (preorderChildren pa d pos i cs) := by
  cases cs with
  | nil => rfl
  | cons c cs =>
    simp only [checkWalkChildren, preorderChildren, checkLinear_append]
    rw [← checkWalkStep_linear c st (some pa) (d + 1) (pos ++ [i])]
    exact checkWalkChildren_linear cs _ _ _ _ (i + 1)
end

theorem CheckProblems_linear (root : Step) :
    CheckProblems root = (checkLinear ⟨[], [], []⟩ (preorder root)).problems := by
  unfold CheckProblems preorder
  rw [checkWalkStep_linear root ⟨[], [], []⟩ none 0 []]

/-- The problem batches the walk appends, step by step, starting from the
given map states. -/
def flattenBatches (seen : List GoStr) (outs : List (GoStr × OutputDef)) :
    List Ctx → List Problem
  | [] => []
  | e :: es =>
    visitProblems seen outs e.par e.abs e.step ++
      flattenBatches (e.abs :: seen) (pushOuts outs e.step.outputs) es

theorem checkLinear_problems (es : List Ctx) (st : CheckState) :
    (checkLinear st es).problems = st.problems ++ flattenBatches st.steps st.outputs es := by
  induction es generalizing st with
  | nil => simp [checkLinear, flattenBatches]
  | cons e es ih =>
    simp [checkLinear, flattenBatches, ih, checkVisit]

/-! ### The validity predicates the claims describe

Spec-side formulations, written over the pre-order visit list. -/

/-- The outputs declared by steps strictly earlier (in pre-order) than the
entry at index `k` — in declaration order. -/
def outsBefore (es : List Ctx) (k : Nat) : List OutputDef :=
  ((es.take k).map (fun e => e.step.outputs)).flatten

/-- The most recently declared output with the given name. -/
def lookupLastOut (l : List OutputDef) (nm : GoStr) : Option OutputDef :=
  l.reverse.find? (fun o => o.Name == nm)

/-- Claim C2, read literally: every step's absolute name is unique and
non-empty, every step has a non-empty short title, and every input's name
matches an output declared by a step strictly earlier in pre-order with the
input's declared type equal to that output's type. -/
def claimOk (es : List Ctx) : Prop :=
  (es.map Ctx.abs).Nodup ∧
  (∀ e ∈ es, e.abs ≠ [] ∧ e.step.short ≠ []) ∧
  (∀ k (h : k < es.length), ∀ i ∈ (es.get ⟨k, h⟩).step.inputs,
    ∃ o ∈ outsBefore es k, o.Name = i.Name ∧ o.ValueType = i.ValueType)

instance (es : List Ctx) : Decidable (claimOk es) := by
  unfold claimOk; infer_instance

/-- Claim C2 as amended: every step's absolute name is unique and does not
end with the `.` separator (i.e. every step received a non-empty name),
every step has a non-empty short title, and for every input the most
recently declared earlier output with the input's name exists and has the
input's declared type (later same-named outputs shadow earlier ones). -/
def checkOk (es : List Ctx) : Prop :=
  (es.map Ctx.abs).Nodup ∧
  (∀ e ∈ es, e.abs.getLast? ≠ some '.' ∧ e.step.short ≠ []) ∧
  (∀ k (h : k < es.length), ∀ i ∈ (es.get ⟨k, h⟩).step.inputs,
    ∃ o, lookupLastOut (outsBefore es k) i.Name = some o ∧
      o.ValueType = i.ValueType)

instance (es : List Ctx) : Decidable (checkOk es) := by
  unfold checkOk; infer_instance

/-! ### Characterizing when the checker reports no problems -/

theorem outsBefore_zero (es : List Ctx) : outsBefore es 0 = [] := rfl

theorem outsBefore_succ_cons (e : Ctx) (es : List Ctx) (k : Nat) :
    outsBefore (e :: es) (k + 1) = e.step.outputs ++ outsBefore es k := by
  simp [outsBefore, List.take_succ_cons]

theorem pushOuts_append (outs : List (GoStr × OutputDef))
    (l₁ l₂ : List OutputDef) :
    pushOuts outs (l₁ ++ l₂) = pushOuts (pushOuts outs l₁) l₂ :=
  List.foldl_append _ _ _ _

theorem lookup_pushOuts (l : List OutputDef) (outs : List (GoStr × OutputDef))
    (nm : GoStr) :
    (pushOuts outs l).lookup nm = (lookupLastOut l nm).or (outs.lookup nm) := by
  induction l generalizing outs with
  | nil => simp [pushOuts, lookupLastOut]
  | cons o l ih =>
    show (pushOuts ((o.Name, o) :: outs) l).lookup nm = _
    rw [ih]
    simp only [lookupLastOut, List.reverse_cons, List.find?_append]
    cases hf : (l.reverse.find? (fun x => x.Name == nm)) with
    | some x => simp [lookupLastOut, hf, Option.or]
    | none =>
      simp only [lookupLastOut, hf, Option.or, List.find?_cons, List.find?_nil]
      rcases Decidable.em (o.Name = nm) with h | h
      · simp [h, List.lookup]
      · have h1 : (o.Name == nm) = false := by simp [h]
        have h2 : (nm == o.Name) = false := by simp [Ne.symm h]
        simp [h1, h2, List.lookup]

theorem visitProblems_nil_iff (seen : List GoStr)
    (outs : List (GoStr × OutputDef)) (par : Option GoStr) (abs : GoStr)
    (s : Step) :
    visitProblems seen outs par abs s = [] ↔
      abs.getLast? ≠ some '.' ∧ abs ∉ seen ∧ s.short ≠ [] ∧
      ∀ i ∈ s.inputs, ∃ o, outs.lookup i.Name = some o ∧
        o.ValueType = i.ValueType := by
  unfold visitProblems
  simp only [List.append_eq_nil, List.flatten_eq_nil_iff, List.forall_mem_map]
  constructor
  · rintro ⟨⟨⟨h1, h2⟩, h3⟩, h4⟩
    refine ⟨?_, ?_, ?_, ?_⟩
    · intro hc
      rw [if_pos hc] at h1
      cases par <;> simp at h1
    · intro hc
      rw [if_pos hc] at h2
      simp at h2
    · intro hc
      rw [if_pos hc] at h3
      simp at h3
    · intro i hi
      have := h4 i hi
      cases hl : outs.lookup i.Name with
      | none => rw [hl] at this; simp at this
      | some o =>
        rw [hl] at this
        refine ⟨o, rfl, ?_⟩
        by_contra hne
        simp [hne] at this
  · rintro ⟨h1, h2, h3, h4⟩
    refine ⟨⟨⟨by rw [if_neg h1], by rw [if_neg h2]⟩, by rw [if_neg h3]⟩, ?_⟩
    intro i hi
    obtain ⟨o, hl, ht⟩ := h4 i hi
    rw [hl]
    simp [ht]

theorem flattenBatches_nil_iff (es : List Ctx) :
    ∀ seen outs, flattenBatches seen outs es = [] ↔
    ∀ k (h : k < es.length),
      visitProblems (((es.take k).map Ctx.abs).reverse ++ seen)
        (pushOuts outs (outsBefore es k))
        (es.get ⟨k, h⟩).par (es.get ⟨k, h⟩).abs (es.get ⟨k, h⟩).step = [] := by
  induction es with
  | nil =>
    intro seen outs
    simp [flattenBatches]
  | cons e es ih =>
    intro seen outs
    simp only [flattenBatches, List.append_eq_nil, ih]
    constructor
    · rintro ⟨h0, hrest⟩ k hk
      match k with
      | 0 => simpa [outsBefore_zero, pushOuts] using h0
      | k + 1 =>
        have := hrest k (by simpa using hk)
        simpa [outsBefore_succ_cons, pushOuts_append, List.take_succ_cons,
          List.append_assoc] using this
    · intro h
      refine ⟨?_, ?_⟩
      · simpa [outsBefore_zero, pushOuts] using h 0 (by simp)
      · intro k hk
        have := h (k + 1) (by simpa using hk)
        simpa [outsBefore_succ_cons, pushOuts_append, List.take_succ_cons,
          List.append_assoc] using this

theorem nodup_iff_get_not_mem_take {α : Type} (l : List α) :
    l.Nodup ↔ ∀ k (h : k < l.length), l.get ⟨k, h⟩ ∉ l.take k := by
  induction l with
  | nil => simp
  | cons a l ih =>
    rw [List.nodup_cons, ih]
    constructor
    · rintro ⟨hnm, hrest⟩ k hk
      match k with
      | 0 => simp
      | k + 1 =>
        simp only [List.take_succ_cons, List.get_cons_succ, List.mem_cons]
        push_neg
        refine ⟨?_, hrest k (by simpa using hk)⟩
        intro hc
        exact hnm (hc ▸ List.get_mem l k _)
    · intro h
      refine ⟨?_, ?_⟩
      · intro hmem
        obtain ⟨⟨k, hk⟩, hget⟩ := List.mem_iff_get.mp hmem
        have := h (k + 1) (by simpa using hk)
        simp only [List.take_succ_cons, List.get_cons_succ, List.mem_cons] at this
        push_neg at this
        exact this.1 hget
      · intro k hk
        have := h (k + 1) (by simpa using hk)
        simp only [List.take_succ_cons, List.get_cons_succ, List.mem_cons] at this
        push_neg at this
        exact this.2

theorem forall_mem_iff_get {α : Type} (l : List α) (P : α → Prop) :
    (∀ a ∈ l, P a) ↔ ∀ k (h : k < l.length), P (l.get ⟨k, h⟩) := by
  constructor
  · intro h k hk
    exact h _ (List.get_mem l k hk)
  · intro h a ha
    obtain ⟨⟨k, hk⟩, rfl⟩ := List.mem_iff_get.mp ha
    exact h k hk

theorem checkProblems_nil_iff (r : Step) :
    CheckProblems r = [] ↔ checkOk (preorder r) := by
  rw [CheckProblems_linear, checkLinear_problems]
  show [] ++ flattenBatches [] [] (preorder r) = [] ↔ _
  rw [List.nil_append, flattenBatches_nil_iff]
  simp only [visitProblems_nil_iff, lookup_pushOuts, List.lookup_nil,
    Option.or_none, List.append_nil, List.mem_reverse, List.map_take]
  unfold checkOk
  set es := preorder r with hes
  constructor
  · intro hall
    refine ⟨?_, ?_, ?_⟩
    · rw [nodup_iff_get_not_mem_take]
      intro k hk
      have hk' : k < es.length := by simpa using hk
      have := (hall k hk').2.1
      simpa [List.get_eq_getElem, List.getElem_map] using this
    · rw [forall_mem_iff_get]
      intro k hk
      exact ⟨(hall k hk).1, (hall k hk).2.2.1⟩
    · intro k hk i hi
      exact (hall k hk).2.2.2 i hi
  · rintro ⟨h1, h2, h3⟩ k hk
    rw [forall_mem_iff_get] at h2
    refine ⟨(h2 k hk).1, ?_, (h2 k hk).2, fun i hi => h3 k hk i hi⟩
    rw [nodup_iff_get_not_mem_take] at h1
    have hk' : k < (es.map Ctx.abs).length := by simpa using hk
    have := h1 k hk'
    simpa [List.get_eq_getElem, List.getElem_map] using this

/-! ### The claims about the checker -/

/-- A procedure whose root carries the name `"root"` that `NewProcedure`
gives it, with two children: step `a` declares the string output `x` and
step `c` consumes it as a string input — a valid procedure. -/
def procOk : Step :=
  .mk (gs "root") (gs "r") [] [] []
    [ .mk (gs "a") (gs "s2") [] [] [⟨gs "string", gs "x", gs "d"⟩] [],
      .mk (gs "c") (gs "s4") [] [⟨gs "string", gs "x", true⟩] [] [] ]

/-- A procedure exercising the two spots where claim C2's wording and the
checker disagree: a child with an empty name (absolute name `"root."`, which
is non-empty and unique, yet flagged), and an input `x : string` for which an
equal-typed output `x : string` was declared earlier but is shadowed by a
later `x : int` (an `InputInt`-style declaration; the checker compares the
stored `ValueType` strings). -/
def procC2 : Step :=
  .mk (gs "root") (gs "r") [] [] []
    [ .mk (gs "") (gs "s1") [] [] [] [],
      .mk (gs "a") (gs "s2") [] [] [⟨gs "string", gs "x", gs "d"⟩] [],
      .mk (gs "b") (gs "s3") [] [] [⟨gs "int", gs "x", gs "d"⟩] [],
      .mk (gs "c") (gs "s4") [] [⟨gs "string", gs "x", true⟩] [] [] ]

/-- C2, counterexample: `procC2` satisfies claim C2's validity condition read
literally, yet `Check` reports problems. -/
theorem c2_counterexample :
    claimOk (preorder procC2) ∧ CheckProblems procC2 ≠ [] := by
  constructor
  · decide
  · decide

/-- C2 (amended): for every procedure (rooted at the step `NewProcedure`
names `"root"`), `Check` returns zero problems iff every step's absolute
name is unique and does not end in the separator (every step received a
non-empty name), every step has a non-empty short title, and every input's
most recently declared strictly-earlier output with the input's name exists
and has the input's declared type.  In particular a step's own outputs never
satisfy its own inputs (only strictly earlier entries contribute to
`outsBefore`). -/
theorem c2_check_zero_problems_iff (r : Step) (hname : r.name = gs "root") :
    CheckProblems r = [] ↔ checkOk (preorder r) :=
  checkProblems_nil_iff r

/-- C2, witness: the amended equivalence evaluated on the concrete valid
procedure `procOk`. -/
theorem c2_check_zero_problems_iff_witness : checkOk (preorder procOk) :=
  (c2_check_zero_problems_iff procOk (by decide)).mp (by decide)

/-- C1: `Check` returns the full accumulated problem list — the
concatenation, over every visited step in walk order, of that step's problem
batch — and the returned error is non-nil (modelled as `true`) iff that list
is non-empty. -/
theorem c1_check_error_iff_problems (r : Step) (hname : r.name = gs "root") :
    (Check r).1 = flattenBatches [] [] (preorder r) ∧
    ((Check r).2 = true ↔ flattenBatches [] [] (preorder r) ≠ []) := by
  have hp : CheckProblems r = flattenBatches [] [] (preorder r) := by
    rw [CheckProblems_linear, checkLinear_problems]
    rfl
  unfold Check
  rw [← hp]
  by_cases hq : (CheckProblems r).length > 0
  · have hne : CheckProblems r ≠ [] := by
      intro hc
      rw [hc] at hq
      simp at hq
    simp [hq, hne]
  · have hnil : CheckProblems r = [] := by
      cases hc : CheckProblems r with
      | nil => rfl
      | cons a l => rw [hc] at hq; simp at hq
    simp [hq, hnil]

/-- C1, witness: the claim evaluated on the concrete procedure `procOk`. -/
theorem c1_check_error_iff_problems_witness :
    (Check procOk).1 = flattenBatches [] [] (preorder procOk) ∧
    ((Check procOk).2 = true ↔ flattenBatches [] [] (preorder procOk) ≠ []) :=
  c1_check_error_iff_problems procOk (by decide)

/-- A procedure in which two different steps each declare an output named
`x` (both well-formed otherwise).  `OutputString`'s documentation promises
that `Procedure.Check()` returns an error for it. -/
def procDupOut : Step :=
  .mk (gs "root") (gs "r") [] [] []
    [ .mk (gs "a") (gs "s1") [] [] [⟨gs "string", gs "x", gs "d1"⟩] [],
      .mk (gs "b") (gs "s2") [] [] [⟨gs "string", gs "x", gs "d2"⟩] [] ]

/-- C6: the code at the failing input.  Two distinct steps of `procDupOut`
declare an output with the same name `x`, yet `Check` returns no problems
and a nil error — the checker never inspects output names for duplication
(the `outputs` map write simply overwrites), contradicting `OutputString`'s
documented contract. -/
theorem c6_duplicate_outputs_unreported :
    ((procDupOut.children.map (fun s => s.outputs.map OutputDef.Name)) =
      [[gs "x"], [gs "x"]]) ∧
    Check procDupOut = ([], false) := by
  constructor
  · decide
  · decide

/-! ## `Step.Long` and `Step.trimCommonIndent` (`step.go`)

`Long` massages its argument before storing it: a regex removes leading
all-whitespace lines, a second regex removes trailing all-whitespace lines
(with the final newline), and `trimCommonIndent` strips the longest common
leading-whitespace run. -/

/-- Index of the last occurrence of `c` in `s`. -/
def lastIdx (c : Char) : GoStr → Option Nat
  | [] => none
  | a :: as =>
    match lastIdx c as with
    | some i => some (i + 1)
    | none => if a = c then some 0 else none

/-- `regexp.MustCompile("\\A\\s*\\n").ReplaceAllString(s, "")`: the anchored
pattern has exactly one candidate match — the longest all-whitespace prefix
of `s` ending with a newline, i.e. the prefix running up to and including
the last newline inside the maximal whitespace prefix — and it is removed. -/
def trimLeadingBlank (s : GoStr) : GoStr :=
  match lastIdx '\n' (s.takeWhile goWs) with
  | none => s
  | some i => s.drop (i + 1)

/-- `regexp.MustCompile("\\n\\s*\\z").ReplaceAllString(s, "")`: the leftmost
match starts at the earliest newline after which all remaining characters
are whitespace and extends to the end.  Reversed, that removed region is
exactly the longest all-whitespace prefix of `reverse s` that ends with a
newline, so the operation is the mirror image of `trimLeadingBlank`. -/
def trimTrailingBlank (s : GoStr) : GoStr :=
  (trimLeadingBlank s.reverse).reverse

/-- `Step.trimCommonIndent`: split into lines, filter out empty lines, sort,
take the longest common prefix of the first and last sorted lines, keep its
leading whitespace, and remove that from every original line with
`strings.Replace(line, wsPrefix, "", 1)`.  `sort.Strings` is modelled as
`sortStrings`.  `lines[0]`/`lines[len(lines)-1]` are total
here via `headD`/`getLastD`; the list is non-empty on that branch. -/
def trimCommonIndent (s : GoStr) : GoStr :=
  let origLines := splitChar '\n' s
  let lines := origLines.filter (fun l => !l.isEmpty)
  if lines.isEmpty then s
  else
    let sorted := sortStrings lines
    let first := sorted.headD []
    let last := sorted.getLastD []
    let commonPref := lcp first last
    let wsPref := commonPref.takeWhile goWs
    joinChar '\n' (origLines.map (fun l => replaceFirst l wsPref []))

/-- `Step.Long`: the stored long description. -/
def Long (s : GoStr) : GoStr :=
  trimCommonIndent (trimTrailingBlank (trimLeadingBlank s))

/-! ### The spec-side line pipeline for claim C7 -/

/-- A blank line in the spec's sense: containing only whitespace. -/
def blankLine (l : GoStr) : Bool := l.all goWs

/-- Drop the trailing elements satisfying `p`. -/
def dropTrailWhile {α : Type} (p : α → Bool) (l : List α) : List α :=
  (l.reverse.dropWhile p).reverse

/-- The longest common prefix of a list of strings. -/
def lcpList : List GoStr → GoStr
  | [] => []
  | [l] => l
  | l :: ls => lcp l (lcpList ls)

/-- The longest common leading-whitespace prefix of the given lines: the
leading whitespace run of their longest common prefix (`lcpList_commonWsPref`
and `commonWsPref_longest` below justify the name). -/
def commonWsPref (ls : List GoStr) : GoStr := (lcpList ls).takeWhile goWs

/-- Remove the prefix `p` from `l` where present. -/
def stripPref (p l : GoStr) : GoStr :=
  if p.isPrefixOf l then l.drop p.length else l

/-- Claim C7 read literally: remove leading and trailing whitespace-only
lines, then remove the longest common leading-whitespace prefix of the
non-blank (whitespace-only = blank) lines from every line. -/
def longSpecBlank (s : GoStr) : GoStr :=
  let ls := dropTrailWhile blankLine ((splitChar '\n' s).dropWhile blankLine)
  let p := commonWsPref (ls.filter (fun l => !blankLine l))
  joinChar '\n' (ls.map (stripPref p))

/-- Claim C7 as amended: identical, except that only *empty* lines are
excluded from the common-prefix computation — a whitespace-only but
non-empty line participates in it. -/
def longSpecEmpty (s : GoStr) : GoStr :=
  let ls := dropTrailWhile blankLine ((splitChar '\n' s).dropWhile blankLine)
  let p := commonWsPref (ls.filter (fun l => !l.isEmpty))
  joinChar '\n' (ls.map (stripPref p))

/-! ### Longest-common-prefix and lexicographic-order facts -/

theorem takeWhilePref {α : Type} {l : List α} (p : α → Bool) :
    l.takeWhile p <+: l :=
  List.takeWhile_prefix p

theorem isPrefixOfIff {l₁ l₂ : GoStr} : l₁.isPrefixOf l₂ = true ↔ l₁ <+: l₂ :=
  List.isPrefixOf_iff_prefix

theorem lcp_self (a : GoStr) : lcp a a = a := by
  induction a with
  | nil => rfl
  | cons x xs ih => simp [lcp, ih]

theorem lcp_prefix_left (a b : GoStr) : lcp a b <+: a := by
  induction a generalizing b with
  | nil => cases b <;> simp [lcp]
  | cons x xs ih =>
    cases b with
    | nil => simp [lcp]
    | cons y ys =>
      by_cases h : x = y
      · subst h
        simp only [lcp, if_pos rfl]
        exact (List.cons_prefix_cons).mpr ⟨rfl, ih ys⟩
      · simp [lcp, h]

theorem lcp_prefix_right (a b : GoStr) : lcp a b <+: b := by
  induction a generalizing b with
  | nil => cases b <;> simp [lcp]
  | cons x xs ih =>
    cases b with
    | nil => simp [lcp]
    | cons y ys =>
      by_cases h : x = y
      · subst h
        simp only [lcp, if_pos rfl]
        exact (List.cons_prefix_cons).mpr ⟨rfl, ih ys⟩
      · simp [lcp, h]

theorem prefix_lcp (p a b : GoStr) (ha : p <+: a) (hb : p <+: b) :
    p <+: lcp a b := by
  induction p generalizing a b with
  | nil => simp
  | cons x xs ih =>
    obtain ⟨ta, rfl⟩ := ha
    obtain ⟨tb, hb'⟩ := hb
    cases b with
    | nil => simp at hb'
    | cons y ys =>
      rw [List.cons_append] at hb'
      obtain ⟨rfl, hyt⟩ := List.cons.injEq .. ▸ hb'
      simp only [List.cons_append, lcp, if_pos rfl]
      exact (List.cons_prefix_cons).mpr
        ⟨rfl, ih _ _ (List.prefix_append _ _) ⟨tb, hyt⟩⟩

theorem lcpList_isPref (ls : List GoStr) : ∀ x ∈ ls, lcpList ls <+: x := by
  induction ls with
  | nil => simp
  | cons l ls ih =>
    intro x hx
    cases ls with
    | nil =>
      simp only [List.mem_singleton] at hx
      subst hx
      exact List.prefix_refl _
    | cons l2 ls2 =>
      rcases List.mem_cons.mp hx with rfl | hx'
      · exact lcp_prefix_left _ _
      · exact (lcp_prefix_right _ _).trans (ih x hx')

theorem prefix_lcpList (ls : List GoStr) (p : GoStr) (hne : ls ≠ [])
    (h : ∀ x ∈ ls, p <+: x) : p <+: lcpList ls := by
  induction ls with
  | nil => exact absurd rfl hne
  | cons l ls ih =>
    cases ls with
    | nil => exact h l (by simp)
    | cons l2 ls2 =>
      exact prefix_lcp _ _ _ (h l (by simp))
        (ih (by simp) (fun x hx => h x (List.mem_cons_of_mem _ hx)))

theorem prefix_takeWhile (p : Char → Bool) (q l : GoStr) (hq : q.all p)
    (hpre : q <+: l) : q <+: l.takeWhile p := by
  induction q generalizing l with
  | nil => simp
  | cons x xs ih =>
    obtain ⟨t, rfl⟩ := hpre
    simp only [List.all_cons, Bool.and_eq_true] at hq
    rw [List.cons_append, List.takeWhile_cons_of_pos hq.1]
    exact (List.cons_prefix_cons).mpr ⟨rfl, ih _ hq.2 (List.prefix_append _ _)⟩

theorem prefix_antisymm {a b : GoStr} (h1 : a <+: b) (h2 : b <+: a) : a = b :=
  h1.sublist.eq_of_length_le h2.length_le

/-- `lexLe` is reflexive. -/
theorem lexLe_refl (a : GoStr) : lexLe a a = true := by
  induction a with
  | nil => rfl
  | cons x xs ih => simp [lexLe, ih]

/-- `lexLe` is total. -/
theorem lexLe_total (a b : GoStr) : lexLe a b || lexLe b a := by
  induction a generalizing b with
  | nil => simp [lexLe]
  | cons x xs ih =>
    cases b with
    | nil => simp [lexLe]
    | cons y ys =>
      by_cases h : x = y
      · subst h
        simpa [lexLe] using ih ys
      · have hne : ¬y = x := fun hc => h hc.symm
        rcases lt_or_gt_of_ne (show x ≠ y from h) with hlt | hgt
        · simp [lexLe, h, hne, hlt]
        · simp [lexLe, h, hne, hgt, not_lt_of_gt hgt]

/-- `lexLe` is transitive. -/
theorem lexLe_trans (a b c : GoStr) (hab : lexLe a b) (hbc : lexLe b c) :
    lexLe a c = true := by
  induction a generalizing b c with
  | nil => rfl
  | cons x xs ih =>
    cases b with
    | nil => simp [lexLe] at hab
    | cons y ys =>
      cases c with
      | nil => simp [lexLe] at hbc
      | cons z zs =>
        by_cases hxy : x = y <;> by_cases hyz : y = z
        · subst hxy; subst hyz
          simp only [lexLe, if_pos rfl] at hab hbc ⊢
          exact ih ys zs hab hbc
        · subst hxy
          simp only [lexLe, if_neg hyz] at hbc
          simp only [lexLe, if_neg hyz]
          exact hbc
        · subst hyz
          simp only [lexLe, if_neg hxy] at hab
          simp only [lexLe, if_neg hxy]
          exact hab
        · simp only [lexLe, if_neg hxy] at hab
          simp only [lexLe, if_neg hyz] at hbc
          have hxz : x < z := lt_trans (of_decide_eq_true hab) (of_decide_eq_true hbc)
          by_cases h : x = z
          · exact absurd (h ▸ hxz) (lt_irrefl z)
          · simp [lexLe, h, hxz]

/-- If `a ≤ x ≤ b` lexicographically, the common prefix of `a` and `b` is a
prefix of `x` as well. -/
theorem lcp_prefix_of_between (a b x : GoStr) (hax : lexLe a x)
    (hxb : lexLe x b) : lcp a b <+: x := by
  induction a generalizing b x with
  | nil => simp [lcp]
  | cons c as ih =>
    cases b with
    | nil => simp [lcp]
    | cons d bs =>
      by_cases hcd : c = d
      · subst hcd
        cases x with
        | nil => simp [lexLe] at hax
        | cons e xs =>
          by_cases hce : c = e
          · subst hce
            simp only [lexLe, if_pos rfl] at hax hxb
            simp only [lcp, if_pos rfl]
            exact (List.cons_prefix_cons).mpr ⟨rfl, ih _ _ hax hxb⟩
          · exfalso
            have hec : ¬e = c := fun hc => hce hc.symm
            simp only [lexLe, if_neg hce] at hax
            simp only [lexLe, if_neg hec] at hxb
            exact absurd (lt_trans (of_decide_eq_true hax) (of_decide_eq_true hxb))
              (lt_irrefl c)
      · simp [lcp, hcd]

theorem mem_insertSorted (x a : GoStr) (l : List GoStr) :
    a ∈ insertSorted x l ↔ a = x ∨ a ∈ l := by
  induction l with
  | nil => simp [insertSorted]
  | cons y ys ih =>
    simp only [insertSorted]
    by_cases h : lexLe x y
    · simp only [if_pos h, List.mem_cons]
    · simp only [if_neg h, List.mem_cons, ih]
      tauto

theorem mem_sortStrings_iff {l : List GoStr} {x : GoStr} :
    x ∈ sortStrings l ↔ x ∈ l := by
  induction l with
  | nil => simp [sortStrings]
  | cons a t ih => simp [sortStrings, mem_insertSorted, ih]

theorem sortStrings_ne_nil {l : List GoStr} (h : l ≠ []) :
    sortStrings l ≠ [] := by
  cases l with
  | nil => exact absurd rfl h
  | cons a t =>
    show insertSorted a (sortStrings t) ≠ []
    cases hs : sortStrings t with
    | nil => simp [insertSorted]
    | cons y ys =>
      simp only [insertSorted]
      by_cases hxy : lexLe a y <;> simp [hxy]

theorem pairwise_insertSorted (x : GoStr) (l : List GoStr)
    (hp : List.Pairwise (fun a b => lexLe a b = true) l) :
    List.Pairwise (fun a b => lexLe a b = true) (insertSorted x l) := by
  induction l with
  | nil => simp [insertSorted]
  | cons y ys ih =>
    simp only [insertSorted]
    obtain ⟨hy, hys⟩ := List.pairwise_cons.mp hp
    by_cases h : lexLe x y
    · rw [if_pos h]
      refine List.pairwise_cons.mpr ⟨?_, hp⟩
      intro b hb
      rcases List.mem_cons.mp hb with rfl | hb'
      · exact h
      · exact lexLe_trans x y b h (hy b hb')
    · rw [if_neg h]
      refine List.pairwise_cons.mpr ⟨?_, ih hys⟩
      intro b hb
      rcases (mem_insertSorted x b ys).mp hb with heq | hb'
      · subst heq
        have := lexLe_total b y
        rcases Bool.or_eq_true .. ▸ this with h1 | h2
        · exact absurd h1 h
        · exact h2
      · exact hy b hb'

theorem sortStrings_pairwise (l : List GoStr) :
    List.Pairwise (fun a b => lexLe a b = true) (sortStrings l) := by
  induction l with
  | nil => simp [sortStrings]
  | cons a t ih => exact pairwise_insertSorted a (sortStrings t) ih

theorem getLastD_mem {α : Type} (l : List α) (d : α) (h : l ≠ []) :
    l.getLastD d ∈ l := by
  induction l generalizing d with
  | nil => exact absurd rfl h
  | cons a t ih =>
    rw [List.getLastD_cons]
    cases t with
    | nil => simp [List.getLastD]
    | cons b t2 => exact List.mem_cons_of_mem _ (ih b (by simp))

theorem getLastD_indep {α : Type} (l : List α) (d d' : α) (h : l ≠ []) :
    l.getLastD d = l.getLastD d' := by
  cases l with
  | nil => exact absurd rfl h
  | cons a t => rfl

theorem headD_mem {α : Type} (l : List α) (d : α) (h : l ≠ []) :
    l.headD d ∈ l := by
  cases l with
  | nil => exact absurd rfl h
  | cons a t => simp

/-- In a `lexLe`-sorted list, the head is a lower bound. -/
theorem sorted_headD_le (l : List GoStr)
    (hs : List.Pairwise (fun a b => lexLe a b = true) l) :
    ∀ x ∈ l, lexLe (l.headD []) x = true := by
  cases l with
  | nil => simp
  | cons a t =>
    intro x hx
    rcases List.mem_cons.mp hx with rfl | hx'
    · exact lexLe_refl x
    · exact (List.pairwise_cons.mp hs).1 x hx'

/-- In a `lexLe`-sorted list, the last element is an upper bound. -/
theorem sorted_le_getLastD (l : List GoStr)
    (hs : List.Pairwise (fun a b => lexLe a b = true) l) :
    ∀ x ∈ l, lexLe x (l.getLastD []) = true := by
  induction l with
  | nil => simp
  | cons a t ih =>
    intro x hx
    obtain ⟨ha, ht⟩ := List.pairwise_cons.mp hs
    rw [List.getLastD_cons]
    cases t with
    | nil =>
      simp only [List.mem_singleton] at hx
      subst hx
      exact lexLe_refl x
    | cons b t2 =>
      rw [getLastD_indep _ a [] (by simp)]
      rcases List.mem_cons.mp hx with rfl | hx'
      · exact lexLe_trans _ _ _ (ha b (by simp))
          (ih ht b (by simp))
      · exact ih ht x hx'

/-- The leading-whitespace run of the longest common prefix of the sorted
list's first and last elements is the longest common leading-whitespace
prefix of all the lines. -/
theorem tci_wsPref_eq (lines : List GoStr) (h : lines ≠ []) :
    (lcp ((sortStrings lines).headD [])
        ((sortStrings lines).getLastD [])).takeWhile goWs =
      commonWsPref lines := by
  set sorted := sortStrings lines with hsorted
  have hsne : sorted ≠ [] := sortStrings_ne_nil h
  have hpw : List.Pairwise (fun a b => lexLe a b = true) sorted :=
    sortStrings_pairwise lines
  have hheadmem : sorted.headD [] ∈ lines := by
    rw [← mem_sortStrings_iff]
    exact headD_mem _ _ hsne
  have hlastmem : sorted.getLastD [] ∈ lines := by
    rw [← mem_sortStrings_iff]
    exact getLastD_mem _ _ hsne
  apply prefix_antisymm
  · -- LHS is an all-whitespace common prefix of every line, hence a prefix
    -- of the longest common leading-whitespace prefix.
    have hallws : ((lcp (sorted.headD []) (sorted.getLastD [])).takeWhile goWs).all goWs :=
      List.all_takeWhile
    have hcommon : ∀ x ∈ lines,
        (lcp (sorted.headD []) (sorted.getLastD [])).takeWhile goWs <+: x := by
      intro x hx
      have hxs : x ∈ sorted := mem_sortStrings_iff.mpr hx
      have hbetween : lcp (sorted.headD []) (sorted.getLastD []) <+: x :=
        lcp_prefix_of_between _ _ _ (sorted_headD_le sorted hpw x hxs)
          (sorted_le_getLastD sorted hpw x hxs)
      exact (takeWhilePref goWs).trans hbetween
    exact prefix_takeWhile goWs _ _ hallws (prefix_lcpList lines _ h hcommon)
  · -- and conversely.
    have hallws : (commonWsPref lines).all goWs := List.all_takeWhile
    have hpre : ∀ x ∈ lines, commonWsPref lines <+: x := fun x hx =>
      (takeWhilePref goWs).trans (lcpList_isPref lines x hx)
    exact prefix_takeWhile goWs _ _ hallws
      (prefix_lcp _ _ _ (hpre _ hheadmem) (hpre _ hlastmem))

/-- `commonWsPref` is an all-whitespace common prefix of the lines... -/
theorem lcpList_commonWsPref (ls : List GoStr) :
    (commonWsPref ls).all goWs = true ∧ ∀ x ∈ ls, commonWsPref ls <+: x :=
  ⟨List.all_takeWhile, fun x hx =>
    (takeWhilePref goWs).trans (lcpList_isPref ls x hx)⟩

/-- ... and the longest one: it extends every all-whitespace common prefix. -/
theorem commonWsPref_longest (ls : List GoStr) (q : GoStr) (hne : ls ≠ [])
    (hq : q.all goWs) (h : ∀ x ∈ ls, q <+: x) : q <+: commonWsPref ls :=
  prefix_takeWhile goWs _ _ hq (prefix_lcpList ls q hne h)

/-! ### Lines: splitting, joining, and the two regex trims at line level -/

theorem splitChar_ne_nil (c : Char) (s : GoStr) : splitChar c s ≠ [] := by
  cases s with
  | nil => simp [splitChar]
  | cons a as =>
    simp only [splitChar]
    cases h : splitChar c as with
    | nil => simp
    | cons l ls =>
      by_cases hc : a = c <;> simp [hc]

theorem splitChar_not_mem (c : Char) (s : GoStr) :
    ∀ l ∈ splitChar c s, c ∉ l := by
  induction s with
  | nil =>
    intro l hl
    simp only [splitChar, List.mem_singleton] at hl
    subst hl
    simp
  | cons a as ih =>
    intro l hl
    simp only [splitChar] at hl
    cases h : splitChar c as with
    | nil => exact absurd h (splitChar_ne_nil c as)
    | cons x xs =>
      rw [h] at hl
      by_cases hc : a = c
      · subst hc
        simp only [if_pos rfl] at hl
        rcases List.mem_cons.mp hl with rfl | hl'
        · simp
        · exact ih l (h ▸ hl')
      · simp only [if_neg hc] at hl
        rcases List.mem_cons.mp hl with rfl | hl'
        · intro hmem
          rcases List.mem_cons.mp hmem with rfl | hmem'
          · exact hc rfl
          · exact ih x (h ▸ List.mem_cons_self x xs) hmem'
        · exact ih l (h ▸ List.mem_cons_of_mem x hl')

theorem splitChar_single (c : Char) (s : GoStr) (h : c ∉ s) :
    splitChar c s = [s] := by
  induction s with
  | nil => rfl
  | cons a as ih =>
    have hac : ¬a = c := fun hc => h (hc ▸ List.mem_cons_self a as)
    have has : c ∉ as := fun hc => h (List.mem_cons_of_mem a hc)
    simp only [splitChar, ih has, if_neg hac]

theorem splitChar_append_cons (c : Char) (l t : GoStr) (h : c ∉ l) :
    splitChar c (l ++ c :: t) = l :: splitChar c t := by
  induction l with
  | nil =>
    simp only [List.nil_append, splitChar]
    cases hs : splitChar c t with
    | nil => exact absurd hs (splitChar_ne_nil c t)
    | cons x xs => simp
  | cons a as ih =>
    have hac : ¬a = c := fun hc => h (hc ▸ List.mem_cons_self a as)
    have has : c ∉ as := fun hc => h (List.mem_cons_of_mem a hc)
    simp [splitChar, ih has, hac]

theorem joinChar_cons (c : Char) (l : GoStr) (L : List GoStr) (h : L ≠ []) :
    joinChar c (l :: L) = l ++ c :: joinChar c L := by
  cases L with
  | nil => exact absurd rfl h
  | cons x xs => rfl

theorem joinChar_splitChar (c : Char) (s : GoStr) :
    joinChar c (splitChar c s) = s := by
  induction s with
  | nil => rfl
  | cons a as ih =>
    simp only [splitChar]
    cases h : splitChar c as with
    | nil => exact absurd h (splitChar_ne_nil c as)
    | cons x xs =>
      show joinChar c (if a = c then [] :: x :: xs else (a :: x) :: xs) = a :: as
      by_cases hc : a = c
      · subst hc
        rw [if_pos rfl, joinChar_cons _ _ _ (by simp), ← h, ih]
        rfl
      · rw [if_neg hc]
        cases xs with
        | nil =>
          show a :: x = a :: as
          have : joinChar c (splitChar c as) = as := ih
          rw [h] at this
          simpa using this
        | cons y ys =>
          rw [joinChar_cons _ _ _ (by simp)]
          have : joinChar c (splitChar c as) = as := ih
          rw [h, joinChar_cons _ _ _ (by simp)] at this
          simp [this]

theorem splitChar_joinChar (c : Char) (L : List GoStr) (hne : L ≠ [])
    (h : ∀ l ∈ L, c ∉ l) : splitChar c (joinChar c L) = L := by
  induction L with
  | nil => exact absurd rfl hne
  | cons l ls ih =>
    cases ls with
    | nil => exact splitChar_single c l (h l (by simp))
    | cons l2 ls2 =>
      rw [joinChar_cons _ _ _ (by simp),
        splitChar_append_cons c l _ (h l (by simp)),
        ih (by simp) (fun x hx => h x (List.mem_cons_of_mem l hx))]

theorem takeWhile_append_all (p : Char → Bool) (l t : GoStr) (h : l.all p) :
    (l ++ t).takeWhile p = l ++ t.takeWhile p := by
  induction l with
  | nil => rfl
  | cons a as ih =>
    simp only [List.all_cons, Bool.and_eq_true] at h
    simp [List.takeWhile_cons_of_pos h.1, ih h.2]

theorem takeWhile_append_not_all (p : Char → Bool) (l t : GoStr)
    (h : ¬l.all p = true) : (l ++ t).takeWhile p = l.takeWhile p := by
  induction l with
  | nil => simp at h
  | cons a as ih =>
    simp only [List.all_cons, Bool.and_eq_true] at h
    push_neg at h
    by_cases hp : p a = true
    · simp [List.takeWhile_cons_of_pos hp, ih (h hp)]
    · simp [List.takeWhile_cons_of_neg hp]

theorem lastIdx_none_iff (c : Char) (l : GoStr) :
    lastIdx c l = none ↔ c ∉ l := by
  induction l with
  | nil => simp [lastIdx]
  | cons a as ih =>
    simp only [lastIdx]
    cases h : lastIdx c as with
    | some i =>
      have hmem : c ∈ as := by
        by_contra hc
        rw [ih.mpr hc] at h
        cases h
      simp [hmem]
    | none =>
      have has : c ∉ as := ih.mp h
      by_cases hac : a = c
      · subst hac
        simp
      · simp [hac, has, Ne.symm hac]

theorem lastIdx_append (c : Char) (a b : GoStr) :
    lastIdx c (a ++ b) =
      match lastIdx c b with
      | some j => some (a.length + j)
      | none => lastIdx c a := by
  induction a with
  | nil =>
    cases h : lastIdx c b <;> simp [h, lastIdx]
  | cons x xs ih =>
    show (match lastIdx c (xs ++ b) with
          | some i => some (i + 1)
          | none => if x = c then some 0 else none) = _
    rw [ih]
    cases h : lastIdx c b with
    | some j =>
      show some (xs.length + j + 1) = some ((x :: xs).length + j)
      simp only [List.length_cons]
      congr 1
      omega
    | none => rfl

theorem goWs_nl : goWs '\n' = true := rfl

theorem not_nl_takeWhile (s : GoStr) (h : '\n' ∉ s) :
    '\n' ∉ s.takeWhile goWs :=
  fun hc => h ((takeWhilePref goWs).sublist.subset hc)

/-- A string without newlines is untouched by the leading-blank trim. -/
theorem trimLeadingBlank_no_nl (s : GoStr) (h : '\n' ∉ s) :
    trimLeadingBlank s = s := by
  unfold trimLeadingBlank
  rw [(lastIdx_none_iff _ _).mpr (not_nl_takeWhile s h)]

/-- Peeling one leading all-whitespace line off the leading-blank trim. -/
theorem trimLeadingBlank_blank_cons (l t : GoStr) (hb : blankLine l) :
    trimLeadingBlank (l ++ '\n' :: t) = trimLeadingBlank t := by
  have hall : l.all goWs := hb
  unfold trimLeadingBlank
  rw [takeWhile_append_all goWs l _ hall,
    List.takeWhile_cons_of_pos goWs_nl, lastIdx_append]
  have hcons : lastIdx '\n' ('\n' :: t.takeWhile goWs) =
      match lastIdx '\n' (t.takeWhile goWs) with
      | some j => some (j + 1)
      | none => some 0 := by
    show (match lastIdx '\n' (t.takeWhile goWs) with
          | some i => some (i + 1)
          | none => if '\n' = '\n' then some 0 else none) = _
    cases lastIdx '\n' (t.takeWhile goWs) <;> simp
  rw [hcons]
  cases h : lastIdx '\n' (t.takeWhile goWs) with
  | some j =>
    show (l ++ '\n' :: t).drop (l.length + (j + 1) + 1) = t.drop (j + 1)
    have : l.length + (j + 1) + 1 = l.length + (j + 2) := by omega
    rw [this, List.drop_append]
    rfl
  | none =>
    show (l ++ '\n' :: t).drop (l.length + 0 + 1) = t
    have : l.length + 0 + 1 = l.length + 1 := by omega
    rw [this, List.drop_append]
    rfl

/-- A leading line with a non-whitespace character stops the trim cold. -/
theorem trimLeadingBlank_nonblank (l t : GoStr) (hb : ¬blankLine l = true)
    (hnl : '\n' ∉ l) : trimLeadingBlank (l ++ t) = l ++ t := by
  unfold trimLeadingBlank
  rw [takeWhile_append_not_all goWs l t hb,
    (lastIdx_none_iff _ _).mpr (not_nl_takeWhile l hnl)]

/-- The effect of the leading-blank regex in line terms: drop the leading
all-whitespace lines; when every line is blank the final line survives
because no newline follows it. -/
def dropLeadBlanks : List GoStr → List GoStr
  | [] => []
  | [l] => [l]
  | l :: l2 :: ls =>
    if blankLine l then dropLeadBlanks (l2 :: ls) else l :: l2 :: ls

theorem trimLeadingBlank_join (L : List GoStr) (hne : L ≠ [])
    (hnl : ∀ l ∈ L, '\n' ∉ l) :
    trimLeadingBlank (joinChar '\n' L) = joinChar '\n' (dropLeadBlanks L) := by
  induction L with
  | nil => exact absurd rfl hne
  | cons l ls ih =>
    cases ls with
    | nil =>
      show trimLeadingBlank l = joinChar '\n' [l]
      exact trimLeadingBlank_no_nl l (hnl l (by simp))
    | cons l2 ls2 =>
      rw [joinChar_cons _ _ _ (by simp)]
      by_cases hb : blankLine l
      · rw [trimLeadingBlank_blank_cons l _ hb,
          ih (by simp) (fun x hx => hnl x (List.mem_cons_of_mem l hx))]
        show _ = joinChar '\n' (dropLeadBlanks (l :: l2 :: ls2))
        rw [show dropLeadBlanks (l :: l2 :: ls2) = dropLeadBlanks (l2 :: ls2) by
          simp [dropLeadBlanks, hb]]
      · rw [trimLeadingBlank_nonblank l _ hb (hnl l (by simp))]
        rw [show dropLeadBlanks (l :: l2 :: ls2) = l :: l2 :: ls2 by
          simp [dropLeadBlanks, hb]]
        exact (joinChar_cons _ _ _ (by simp)).symm

theorem dropLeadBlanks_eq_dropWhile (L : List GoStr)
    (hex : ∃ x ∈ L, ¬blankLine x = true) :
    dropLeadBlanks L = L.dropWhile blankLine := by
  induction L with
  | nil => rfl
  | cons l ls ih =>
    cases ls with
    | nil =>
      obtain ⟨x, hx, hxb⟩ := hex
      simp only [List.mem_singleton] at hx
      subst hx
      simp [dropLeadBlanks, List.dropWhile_cons_of_neg hxb]
    | cons l2 ls2 =>
      by_cases hb : blankLine l
      · have hex' : ∃ x ∈ l2 :: ls2, ¬blankLine x = true := by
          obtain ⟨x, hx, hxb⟩ := hex
          rcases List.mem_cons.mp hx with rfl | hx'
          · exact absurd hb hxb
          · exact ⟨x, hx', hxb⟩
        simp only [dropLeadBlanks, if_pos hb, ih hex',
          List.dropWhile_cons_of_pos hb]
      · simp [dropLeadBlanks, hb, List.dropWhile_cons_of_neg hb]

theorem dropLeadBlanks_all_blank (L : List GoStr) (hne : L ≠ [])
    (hall : ∀ x ∈ L, blankLine x = true) :
    dropLeadBlanks L = [L.getLastD []] := by
  induction L with
  | nil => exact absurd rfl hne
  | cons l ls ih =>
    cases ls with
    | nil => rfl
    | cons l2 ls2 =>
      have hb : blankLine l := hall l (by simp)
      simp only [dropLeadBlanks, if_pos hb]
      rw [ih (by simp) (fun x hx => hall x (List.mem_cons_of_mem l hx))]
      simp [List.getLastD_cons]

theorem joinChar_append_single (c : Char) (A : List GoStr) (x : GoStr)
    (hne : A ≠ []) :
    joinChar c (A ++ [x]) = joinChar c A ++ c :: x := by
  induction A with
  | nil => exact absurd rfl hne
  | cons a A' ih =>
    cases A' with
    | nil => rfl
    | cons a2 A2 =>
      rw [List.cons_append, joinChar_cons _ _ _ (by simp),
        joinChar_cons _ _ _ (by simp), ih (by simp)]
      simp

theorem reverse_joinChar (c : Char) (L : List GoStr) :
    (joinChar c L).reverse = joinChar c ((L.map List.reverse).reverse) := by
  induction L with
  | nil => rfl
  | cons l ls ih =>
    cases ls with
    | nil => rfl
    | cons l2 ls2 =>
      rw [joinChar_cons _ _ _ (by simp)]
      have hrev : (l ++ c :: joinChar c (l2 :: ls2)).reverse =
          (joinChar c (l2 :: ls2)).reverse ++ c :: l.reverse := by
        simp
      rw [hrev, ih]
      have hmapne : ((l2 :: ls2).map List.reverse).reverse ≠ [] := by simp
      rw [show ((l :: l2 :: ls2).map List.reverse).reverse =
          ((l2 :: ls2).map List.reverse).reverse ++ [l.reverse] by simp]
      rw [joinChar_append_single c _ _ hmapne]

theorem blankLine_reverse (l : GoStr) : blankLine l.reverse = blankLine l := by
  simp [blankLine, List.all_reverse]

theorem getLastD_append_single {α : Type} (A : List α) (x d : α) :
    (A ++ [x]).getLastD d = x := by
  induction A generalizing d with
  | nil => rfl
  | cons a A' ih =>
    rw [List.cons_append, List.getLastD_cons]
    exact ih a

theorem getLastD_reverse {α : Type} (l : List α) (d : α) :
    l.reverse.getLastD d = l.headD d := by
  cases l with
  | nil => rfl
  | cons a t =>
    rw [List.reverse_cons]
    exact getLastD_append_single t.reverse a d

/-- `trimTrailingBlank` in line terms, generic form via the reversal. -/
theorem trimTrailingBlank_join (L : List GoStr) (hne : L ≠ [])
    (hnl : ∀ l ∈ L, '\n' ∉ l) :
    trimTrailingBlank (joinChar '\n' L) =
      joinChar '\n'
        (((dropLeadBlanks ((L.map List.reverse).reverse)).map
          List.reverse).reverse) := by
  unfold trimTrailingBlank
  rw [reverse_joinChar]
  rw [trimLeadingBlank_join _ (by simpa using hne)
    (fun l hl => by
      simp only [List.mem_reverse, List.mem_map] at hl
      obtain ⟨x, hx, rfl⟩ := hl
      simpa using hnl x hx)]
  rw [reverse_joinChar]

/-- When some line is non-blank, the trailing trim drops exactly the
trailing blank lines. -/
theorem trimTrailingBlank_join_dropTrail (L : List GoStr) (hne : L ≠ [])
    (hnl : ∀ l ∈ L, '\n' ∉ l) (hex : ∃ x ∈ L, ¬blankLine x = true) :
    trimTrailingBlank (joinChar '\n' L) =
      joinChar '\n' (dropTrailWhile blankLine L) := by
  rw [trimTrailingBlank_join L hne hnl]
  congr 1
  have hex' : ∃ x ∈ (L.map List.reverse).reverse, ¬blankLine x = true := by
    obtain ⟨x, hx, hxb⟩ := hex
    exact ⟨x.reverse, by simp [hx], by rwa [blankLine_reverse]⟩
  rw [dropLeadBlanks_eq_dropWhile _ hex']
  rw [show (L.map List.reverse).reverse = L.reverse.map List.reverse by
    rw [List.map_reverse]]
  rw [List.dropWhile_map]
  have hcong : List.dropWhile (blankLine ∘ List.reverse) L.reverse =
      List.dropWhile blankLine L.reverse := by
    congr 1
    funext x
    simp [Function.comp, blankLine_reverse]
  rw [hcong, List.map_map]
  simp [dropTrailWhile, Function.comp]

/-- When every line is blank, the trailing trim keeps just the first line. -/
theorem trimTrailingBlank_join_all_blank (L : List GoStr) (hne : L ≠ [])
    (hnl : ∀ l ∈ L, '\n' ∉ l) (hall : ∀ x ∈ L, blankLine x = true) :
    trimTrailingBlank (joinChar '\n' L) = L.headD [] := by
  rw [trimTrailingBlank_join L hne hnl]
  rw [dropLeadBlanks_all_blank _ (by simpa using hne)
    (fun x hx => by
      simp only [List.mem_reverse, List.mem_map] at hx
      obtain ⟨y, hy, rfl⟩ := hx
      rw [blankLine_reverse]
      exact hall y hy)]
  show joinChar '\n' [((L.map List.reverse).reverse.getLastD []).reverse] = _
  rw [getLastD_reverse]
  have : (L.map List.reverse).headD [] = (L.headD []).reverse := by
    cases L with
    | nil => rfl
    | cons a t => rfl
  rw [this]
  simp [joinChar]

theorem takeWhile_eq_self_of_all (p : Char → Bool) (l : GoStr)
    (h : l.all p = true) : l.takeWhile p = l := by
  induction l with
  | nil => rfl
  | cons a t ih =>
    simp only [List.all_cons, Bool.and_eq_true] at h
    rw [List.takeWhile_cons_of_pos h.1, ih h.2]

theorem replaceFirst_of_pref (l p : GoStr) (h : p <+: l) :
    replaceFirst l p [] = l.drop p.length := by
  unfold replaceFirst
  rw [if_pos (isPrefixOfIff.mpr h)]
  rfl

theorem replaceFirst_nil (p : GoStr) : replaceFirst [] p [] = [] := by
  unfold replaceFirst
  by_cases h : p.isPrefixOf ([] : GoStr) <;> simp [h]

theorem stripPref_of_pref (l p : GoStr) (h : p <+: l) :
    stripPref p l = l.drop p.length := by
  rw [stripPref, if_pos (isPrefixOfIff.mpr h)]

theorem stripPref_nil (p : GoStr) : stripPref p [] = [] := by
  rw [stripPref]
  by_cases h : p.isPrefixOf ([] : GoStr) <;> simp [h]

theorem blankLine_nil : blankLine [] = true := rfl

theorem ne_nil_of_not_blank (l : GoStr) (h : ¬blankLine l = true) : l ≠ [] :=
  fun hc => h (hc ▸ blankLine_nil)

/-- `trimCommonIndent` in line terms: with the original string recovered as
a join of newline-free lines at least one of which is non-blank, the common
leading-whitespace prefix of the non-empty lines is removed from every
line. -/
theorem trimCommonIndent_join (L : List GoStr) (hne : L ≠ [])
    (hnl : ∀ l ∈ L, '\n' ∉ l) (hex : ∃ x ∈ L, ¬blankLine x = true) :
    trimCommonIndent (joinChar '\n' L) =
      joinChar '\n'
        (L.map (stripPref (commonWsPref (L.filter (fun l => !l.isEmpty))))) := by
  obtain ⟨x, hxL, hxb⟩ := hex
  have hxne : x ≠ [] := ne_nil_of_not_blank x hxb
  simp only [trimCommonIndent]
  rw [splitChar_joinChar _ _ hne hnl]
  set lines := L.filter (fun l => !l.isEmpty) with hlines
  have hlne : lines ≠ [] := by
    intro hc
    have : x ∈ lines :=
      List.mem_filter.mpr ⟨hxL, by simp [List.isEmpty_iff, hxne]⟩
    rw [hc] at this
    cases this
  rw [if_neg (by simpa [List.isEmpty_iff] using hlne)]
  rw [tci_wsPref_eq lines hlne]
  congr 1
  apply List.map_congr_left
  intro l hl
  by_cases hle : l = []
  · subst hle
    rw [replaceFirst_nil, stripPref_nil]
  · have hlmem : l ∈ lines :=
      List.mem_filter.mpr ⟨hl, by simp [List.isEmpty_iff, hle]⟩
    have hpre : commonWsPref lines <+: l :=
      (lcpList_commonWsPref lines).2 l hlmem
    rw [replaceFirst_of_pref l _ hpre, stripPref_of_pref l _ hpre]

/-- `trimCommonIndent` on a newline-free all-whitespace string yields the
empty string. -/
theorem trimCommonIndent_blank (r : GoStr) (hb : blankLine r = true)
    (hn : '\n' ∉ r) : trimCommonIndent r = [] := by
  by_cases hre : r = []
  · subst hre
    rfl
  · simp only [trimCommonIndent]
    rw [splitChar_single _ _ hn]
    have hfil : [r].filter (fun l => !l.isEmpty) = [r] := by
      simp [List.isEmpty_iff, hre]
    rw [hfil, if_neg (by simp [List.isEmpty_iff, hre])]
    rw [show sortStrings [r] = [r] from rfl]
    show joinChar '\n'
      ([r].map (fun l =>
        replaceFirst l ((lcp r r).takeWhile goWs) [])) = []
    rw [lcp_self, takeWhile_eq_self_of_all goWs r hb]
    simp only [List.map_singleton, replaceFirst_of_pref r r (List.prefix_refl r),
      List.drop_length]
    rfl

/-- C7 (amended), the main equivalence: `Long` stores its argument with all
leading and trailing whitespace-only lines removed and the longest common
leading-whitespace prefix of the remaining *non-empty* lines removed from
every line.  (Whitespace-only but non-empty interior lines participate in
the common-prefix computation.) -/
theorem dropWhile_head_not {α : Type} (p : α → Bool) (l : List α) (y : α)
    (ys : List α) (h : l.dropWhile p = y :: ys) : p y = false := by
  induction l with
  | nil => cases h
  | cons a t ih =>
    by_cases hp : p a = true
    · rw [List.dropWhile_cons_of_pos hp] at h
      exact ih h
    · rw [List.dropWhile_cons_of_neg hp] at h
      obtain ⟨rfl, -⟩ := List.cons.injEq .. ▸ h
      exact Bool.not_eq_true _ ▸ (by simpa using hp)

/-- The body text Claim C7 and the code disagree on: the middle line `"  "`
is whitespace-only (blank) but non-empty, so `trimCommonIndent` lets it cap
the common prefix at two spaces, while the claim's pipeline ignores it and
strips four. -/
def cexC7 : GoStr := gs "    hello\n  \n    world"

/-- C7, counterexample: on `cexC7` the stored body keeps two spaces of
indentation and blanks the middle line, whereas the claim's literal pipeline
(blank lines never used when computing the prefix) strips the full
four-space indent and keeps the middle line. -/
theorem c7_counterexample :
    Long cexC7 = gs "  hello\n\n  world" ∧
    longSpecBlank cexC7 = gs "hello\n  \nworld" ∧
    Long cexC7 ≠ longSpecBlank cexC7 := by
  refine ⟨by decide, by decide, by decide⟩

theorem c7_long_line_pipeline (s : GoStr) : Long s = longSpecEmpty s := by
  have hjoin : joinChar '\n' (splitChar '\n' s) = s := joinChar_splitChar '\n' s
  have hnl : ∀ l ∈ splitChar '\n' s, '\n' ∉ l := splitChar_not_mem '\n' s
  have hLne : splitChar '\n' s ≠ [] := splitChar_ne_nil '\n' s
  by_cases hex : ∃ x ∈ splitChar '\n' s, ¬blankLine x = true
  · -- some line is non-blank
    set L := splitChar '\n' s with hL
    have h1 : trimLeadingBlank s = joinChar '\n' (L.dropWhile blankLine) := by
      rw [← hjoin, trimLeadingBlank_join L hLne hnl,
        dropLeadBlanks_eq_dropWhile L hex]
    set L1 := L.dropWhile blankLine with hL1
    have hL1sub : ∀ l ∈ L1, l ∈ L := fun l hl =>
      (List.dropWhile_suffix blankLine).sublist.subset hl
    have hL1nl : ∀ l ∈ L1, '\n' ∉ l := fun l hl => hnl l (hL1sub l hl)
    have hL1ne : L1 ≠ [] := by
      intro hc
      obtain ⟨x, hx, hxb⟩ := hex
      exact hxb (List.dropWhile_eq_nil_iff.mp hc x hx)
    have hL1ex : ∃ x ∈ L1, ¬blankLine x = true := by
      cases hh : L1 with
      | nil => exact absurd hh hL1ne
      | cons y ys =>
        exact ⟨y, by simp [hh], by
          simp [dropWhile_head_not blankLine L y ys (hL1 ▸ hh)]⟩
    have h2 : trimTrailingBlank (joinChar '\n' L1) =
        joinChar '\n' (dropTrailWhile blankLine L1) :=
      trimTrailingBlank_join_dropTrail L1 hL1ne hL1nl hL1ex
    set L2 := dropTrailWhile blankLine L1 with hL2
    have hL2rev : L2.reverse = L1.reverse.dropWhile blankLine := by
      rw [hL2]
      simp [dropTrailWhile]
    have hL2sub : ∀ l ∈ L2, l ∈ L1 := by
      intro l hl
      have : l ∈ L2.reverse := List.mem_reverse.mpr hl
      rw [hL2rev] at this
      exact List.mem_reverse.mp
        ((List.dropWhile_suffix blankLine).sublist.subset this)
    have hL2nl : ∀ l ∈ L2, '\n' ∉ l := fun l hl => hL1nl l (hL2sub l hl)
    have hL2ne : L2 ≠ [] := by
      intro hc
      obtain ⟨x, hx, hxb⟩ := hL1ex
      have : L1.reverse.dropWhile blankLine = [] := by
        rw [← hL2rev, hc, List.reverse_nil]
      exact hxb (List.dropWhile_eq_nil_iff.mp this x (List.mem_reverse.mpr hx))
    have hL2ex : ∃ x ∈ L2, ¬blankLine x = true := by
      cases hh : L2.reverse with
      | nil => simp at hh; exact absurd hh hL2ne
      | cons y ys =>
        refine ⟨y, ?_, ?_⟩
        · have : y ∈ L2.reverse := by rw [hh]; simp
          exact List.mem_reverse.mp this
        · rw [hL2rev] at hh
          simp [dropWhile_head_not blankLine L1.reverse y ys hh]
    have h3 := trimCommonIndent_join L2 hL2ne hL2nl hL2ex
    show trimCommonIndent (trimTrailingBlank (trimLeadingBlank s)) = _
    rw [h1, h2, h3]
    rfl
  · -- every line is blank
    have hall : ∀ x ∈ splitChar '\n' s, blankLine x = true := by
      intro x hx
      by_contra hc
      exact hex ⟨x, hx, hc⟩
    set L := splitChar '\n' s with hL
    have h1 : trimLeadingBlank s = L.getLastD [] := by
      rw [← hjoin, trimLeadingBlank_join L hLne hnl,
        dropLeadBlanks_all_blank L hLne hall]
      rfl
    set r := L.getLastD [] with hr
    have hrmem : r ∈ L := getLastD_mem L [] hLne
    have hrb : blankLine r = true := hall r hrmem
    have hrn : '\n' ∉ r := hnl r hrmem
    have h2 : trimTrailingBlank r = r := by
      have := trimTrailingBlank_join_all_blank [r] (by simp)
        (by intro l hl; simp only [List.mem_singleton] at hl; exact hl ▸ hrn)
        (by intro x hx; simp only [List.mem_singleton] at hx; exact hx ▸ hrb)
      simpa [joinChar] using this
    have h3 : trimCommonIndent r = [] := trimCommonIndent_blank r hrb hrn
    show trimCommonIndent (trimTrailingBlank (trimLeadingBlank s)) = _
    rw [h1, h2, h3]
    have hdrop : L.dropWhile blankLine = [] := List.dropWhile_eq_nil_iff.mpr hall
    show ([] : GoStr) = longSpecEmpty s
    simp only [longSpecEmpty, ← hL, hdrop]
    rfl

/-! ## `StepTemplateData.SectionHeader` and `StepTemplateData.Anchor`
(`template.go`)

`Anchor` lowercases the section header, strips the leading `#`s and the
following space(s), drops every character other than ASCII alphanumerics,
hyphens and spaces (via `strings.FieldsFunc` + `strings.Join`), collapses
whitespace runs to single hyphens, and prepends `#`. -/

/-- `strings.ToLower` restricted to ASCII (where Go's Unicode tables agree
with the +32 rule); the claims only exercise ASCII headers. -/
def toLowerGo (c : Char) : Char :=
  if 'A' ≤ c ∧ c ≤ 'Z' then Char.ofNat (c.toNat + 32) else c

/-- Go regexp's POSIX class `[[:alnum:]]` (ASCII letters and digits). -/
def isAlnumGo (c : Char) : Bool :=
  ('a' ≤ c && c ≤ 'z') || ('A' ≤ c && c ≤ 'Z') || ('0' ≤ c && c ≤ '9')

/-- A character the anchor keeps: the class `[[:alnum:]- ]`. -/
def isAnchorChar (c : Char) : Bool :=
  isAlnumGo c || c = '-' || c = ' '

/-- `strings.FieldsFunc(s, f)`: the maximal runs of characters on which `f`
is false, in order, without empties. -/
def fieldsFunc (f : Char → Bool) : GoStr → List GoStr
  | [] => []
  | c :: cs =>
    let rest := fieldsFunc f cs
    if f c then rest
    else
      match cs with
      | [] => [[c]]
      | d :: _ =>
        if f d then [c] :: rest
        else
          match rest with
          | [] => [[c]]
          | r :: rs => (c :: r) :: rs

/-- Helper for `collapseWs`: `inRun` records whether the previous character
was whitespace (so the current run already emitted its hyphen). -/
def collapseWsGo : Bool → GoStr → GoStr
  | _, [] => []
  | inRun, c :: cs =>
    if goWs c then
      if inRun then collapseWsGo true cs else '-' :: collapseWsGo true cs
    else c :: collapseWsGo false cs

/-- `regexp.MustCompile("\\s+").ReplaceAllLiteralString(s, "-")`: replace
each maximal whitespace run with a single hyphen. -/
def collapseWs (s : GoStr) : GoStr := collapseWsGo false s

/-- `strconv.Itoa` on the (non-negative) position entries, joined by
periods: `StepTemplateData.numericPathToString`. -/
def numericPathToString (pos : List Nat) : GoStr :=
  joinChar '.' (pos.map (fun n => (Nat.repr n).toList))

/-- `StepTemplateData.SectionHeader`: `#`×(depth+1), then for non-root
steps the parenthesised dotted position, then the title, joined by single
spaces. -/
def SectionHeader (depth : Nat) (pos : List Nat) (title : GoStr) : GoStr :=
  joinChar ' '
    ([List.replicate (depth + 1) '#'] ++
      (if depth > 0 then [('(' :: numericPathToString pos) ++ [')']] else []) ++
      [title])

/-- The anchor computation as a function of the header text (the body of
`StepTemplateData.Anchor` after the `SectionHeader()` call). -/
def anchorOf (h : GoStr) : GoStr :=
  let s0 := h.map toLowerGo
  let s1 := s0.dropWhile (fun c => c = '#')
  let s2 := s1.dropWhile (fun c => c = ' ')
  let s3 := (fieldsFunc (fun c => !isAnchorChar c) s2).flatten
  let s4 := collapseWs s3
  '#' :: s4

/-- `StepTemplateData.Anchor`: the anchor of the step's section header. -/
def Anchor (depth : Nat) (pos : List Nat) (title : GoStr) : GoStr :=
  anchorOf (SectionHeader depth pos title)

/-- Claim C8's pipeline read literally: lowercase, strip the leading `#`
characters and *the following space* (one), remove every character other
than alphanumerics, hyphens and spaces, collapse each whitespace run to a
single hyphen, prefix `#`. -/
def anchorClaim (h : GoStr) : GoStr :=
  let s0 := h.map toLowerGo
  let s1 := s0.dropWhile (fun c => c = '#')
  let s2 := match s1 with
    | ' ' :: t => t
    | t => t
  let s3 := s2.filter isAnchorChar
  let s4 := collapseWs s3
  '#' :: s4

/-- The pipeline as amended: strip *all* spaces immediately following the
leading `#` characters. -/
def anchorAmended (h : GoStr) : GoStr :=
  let s0 := h.map toLowerGo
  let s1 := s0.dropWhile (fun c => c = '#')
  let s2 := s1.dropWhile (fun c => c = ' ')
  let s3 := s2.filter isAnchorChar
  let s4 := collapseWs s3
  '#' :: s4

theorem fieldsFunc_ne_nil (f : Char → Bool) (d : Char) (t : GoStr)
    (hd : ¬f d = true) : fieldsFunc f (d :: t) ≠ [] := by
  simp only [fieldsFunc, if_neg hd]
  cases t with
  | nil => simp
  | cons e t2 =>
    by_cases he : f e
    · simp [he]
    · simp only [if_neg he]
      cases fieldsFunc f (e :: t2) <;> simp

/-- Joining the fields with the empty string removes exactly the separator
characters: `strings.Join(FieldsFunc(s, f), "")` is `filter (¬ f)`. -/
theorem flatten_fieldsFunc (f : Char → Bool) (s : GoStr) :
    (fieldsFunc f s).flatten = s.filter (fun c => !f c) := by
  induction s with
  | nil => rfl
  | cons c cs ih =>
    simp only [fieldsFunc]
    by_cases hc : f c
    · simp [hc, ih, List.filter_cons]
    · simp only [if_neg hc]
      cases cs with
      | nil => simp [List.filter_cons, hc]
      | cons d t =>
        by_cases hd : f d
        · simp only [if_pos hd]
          simp [List.filter_cons, hc, ih]
        · simp only [if_neg hd]
          cases hr : fieldsFunc f (d :: t) with
          | nil => exact absurd hr (fieldsFunc_ne_nil f d t hd)
          | cons r rs =>
            rw [hr] at ih
            simp only [List.flatten_cons]
            rw [List.filter_cons, if_pos (by simp [hc]), ← ih]
            simp

/-- The procedure's `Anchor`, pointwise: code versus the amended pipeline —
the two differ only in `FieldsFunc`+`Join` versus `filter`. -/
theorem anchorOf_eq_amended (h : GoStr) : anchorOf h = anchorAmended h := by
  simp only [anchorOf, anchorAmended, flatten_fieldsFunc, Bool.not_not]

/-- C8, counterexample: for a (constructible) root-depth step whose title
begins with a space, the header is `"#  x"` — two spaces follow the leading
`#`.  The code strips both and yields `"#x"`, while the claim's pipeline
strips only "the following space", keeps the second one, and collapses it
to a hyphen, yielding `"#-x"`. -/
theorem c8_counterexample :
    SectionHeader 0 [] (gs " x") = gs "#  x" ∧
    Anchor 0 [] (gs " x") = gs "#x" ∧
    anchorClaim (SectionHeader 0 [] (gs " x")) = gs "#-x" ∧
    Anchor 0 [] (gs " x") ≠ anchorClaim (SectionHeader 0 [] (gs " x")) := by
  refine ⟨by decide, by decide, by decide, by decide⟩

/-- C8 (amended): `Anchor` is a deterministic pure function of the header
line's text only — it factors through `SectionHeader` — and equals the
claim's pipeline with "the following space" amended to "all immediately
following spaces". -/
theorem c8_anchor_pipeline (depth : Nat) (pos : List Nat) (title : GoStr) :
    Anchor depth pos title = anchorAmended (SectionHeader depth pos title) :=
  anchorOf_eq_amended (SectionHeader depth pos title)

/-! ## The interactive walker — `Procedure.ExecuteStep` and
`Procedure.prompt` (`procedure.go`)

The output stream is modelled as the list of chunks the successive
`Fprintf`/`Fprintln` calls write (the real output is their concatenation).
The input stream is a function from read index to the result of
`bufio.NewReader(stdin).ReadBytes('\n')`: the raw line and an optional
error, whose message feeds the "Error reading input" report.  The `prompt`
loop's termination depends on the operator, so it takes fuel and returns
`none` when the fuel is exhausted — a run of the Go loop that never returns
is modelled by `= none` for every fuel value. -/

/-- One read result: the raw bytes and the error (by its message). -/
abbrev ReadRes := GoStr × Option GoStr

/-- The operator input stream: result of the `i`-th read. -/
abbrev InStream := Nat → ReadRes

/-- `promptResult` (`procedure.go`). -/
structure PromptResult where
  SkipOne : Bool := false
  SkipTo : GoStr := []
deriving DecidableEq

def promptText : GoStr := gs "\n\n[Enter] to proceed (or \"help\"): "

/-- The text `printPromptHelp` writes (no trailing newline). -/
def helpText : GoStr :=
  gs "Options:\n\n[Enter]\t\t\tProceed to the next step\nskip\t\t\tSkip this step and its descendants\nskipto STEP \tSkip to the given step by absolute name\nhelp\t\t\tPrint this help message"

def invalidChoiceText : GoStr := gs "Invalid choice; enter \"help\" for help\n"

def invalidSkiptoText : GoStr := gs "Invalid 'skipto' syntax; enter \"help\" for help\n"

def errorReadingText (msg : GoStr) : GoStr :=
  gs "Error reading input: " ++ msg ++ gs "\n"

def doneText : GoStr := gs "Done.\n"

def skipOneText (abs : GoStr) : GoStr :=
  gs "Skipping step '" ++ abs ++ gs "' and its descendants\n"

def skipToText (abs target : GoStr) : GoStr :=
  gs "Skipping step '" ++ abs ++ gs "' on the way to '" ++ target ++ gs "'\n"

/-- `Procedure.prompt`: loop until a read succeeds and the entry decides the
result.  Mirrors the Go loop body in order; note two idiosyncrasies of the
source, both modelled faithfully: after `help` the help text is printed but
control *falls through* to the "Invalid choice" report before re-prompting
(no `continue` after `printPromptHelp()`), and a malformed `skipto` prints
the error message but still *returns* `promptResult{SkipTo: parts[1]}` (no
`continue` in that branch either).  `parts[1]` exists because the entry has
prefix `"skipto "`, so the split has at least two fields.  Returns the
result, the next read index, and the chunks written. -/
def prompt (fuel : Nat) (stream : InStream) (cursor : Nat) :
    Option (PromptResult × Nat × List GoStr) :=
  match fuel with
  | 0 => none
  | fuel + 1 =>
    let (raw, err) := stream cursor
    let entry := trimSpace raw
    match err with
    | some msg =>
      match prompt fuel stream (cursor + 1) with
      | none => none
      | some (res, cur, chs) =>
        some (res, cur, [promptText, gs "\n", errorReadingText msg] ++ chs)
    | none =>
      if entry = [] then some ({}, cursor + 1, [promptText, gs "\n"])
      else
        let helpChunks := if entry = gs "help" then [helpText] else []
        if entry = gs "skip" then
          some ({ SkipOne := true }, cursor + 1,
            [promptText, gs "\n"] ++ helpChunks)
        else if (gs "skipto ").isPrefixOf entry then
          let parts := splitChar ' ' entry
          let errChunks :=
            if parts.length ≠ 2 ∨ (parts.getD 1 []).length = 0 then
              [invalidSkiptoText]
            else []
          some ({ SkipTo := parts.getD 1 [] }, cursor + 1,
            [promptText, gs "\n"] ++ helpChunks ++ errChunks)
        else
          match prompt fuel stream (cursor + 1) with
          | none => none
          | some (res, cur, chs) =>
            some (res, cur,
              [promptText, gs "\n"] ++ helpChunks ++ [invalidChoiceText] ++ chs)

/-- Modelled from the spec: `NoRecurse` is the distinguished non-nil
sentinel error the `ExecuteStep` walk callback returns to signal "do not
recurse into children" (§4.4: the callback "returns a 'do not recurse into
children' signal").  Its defining declaration is not among the source
files — only its use site in `ExecuteStep` is — but `Step.Walk` as
implemented gives no error any special treatment, so only its non-nilness
matters. -/
inductive WalkErr where
  | noRecurse
deriving DecidableEq

/-- The backtick character (Go writes it via `strings.Replace(b, "@@", "`",
-1)` on the rendered template output). -/
def backtick : Char := Char.ofNat 96

/-- The text `ExecuteStep` prints for one presented step: the executed
`TemplateExecStep` (`"{{.SectionHeader}}{{if .Body}}\n\n{{.Body}}{{end -}}"`
— header, then a blank line and the body when non-empty), with every `@@`
replaced by a backtick.  `NewStepTemplateData(walkStep, nil, false)` fills
`Title` from `GetShort` and `Body` from `GetLong`. -/
def renderExecStep (e : Ctx) : GoStr :=
  replaceAll
    (SectionHeader e.depth e.pos e.step.short ++
      (if e.step.long ≠ [] then gs "\n\n" ++ e.step.long else []))
    (gs "@@") [backtick]

/-- The walk callback of `ExecuteStep`, given the walker state (the recorded
`skipTo` target and the input cursor).  Returns the new state, the chunks
written, and the callback's error result (`some .noRecurse` after `skip`).
`none` overall means the prompt ran out of fuel. -/
def execVisit (fuel : Nat) (stream : InStream) (st : GoStr × Nat) (e : Ctx) :
    Option ((GoStr × Nat) × List GoStr × Option WalkErr) :=
  if st.1 ≠ [] ∧ e.abs ≠ st.1 then
    some (st, [skipToText e.abs st.1], none)
  else
    match prompt fuel stream st.2 with
    | none => none
    | some (res, cur, pchs) =>
      if res.SkipOne then
        some ((st.1, cur), [renderExecStep e] ++ pchs ++ [skipOneText e.abs],
          some .noRecurse)
      else
        some ((res.SkipTo, cur), [renderExecStep e] ++ pchs, none)

mutual
/-- `Step.Walk` with the `ExecuteStep` callback: visit the node, stop on any
error (the source `Walk` returns the first error immediately — including
`NoRecurse`), otherwise walk the children in order. -/
def walkExecStep (fuel : Nat) (stream : InStream) (st : GoStr × Nat)
    (pa : Option GoStr) (depth : Nat) (pos : List Nat) :
    Step → Option ((GoStr × Nat) × List GoStr × Option WalkErr)
  | .mk n sh lo ins outs cs =>
    let abs := absNameOf pa n
    match execVisit fuel stream st ⟨pa, abs, depth, pos, .mk n sh lo ins outs cs⟩ with
    | none => none
    | some (st1, chs, some err) => some (st1, chs, some err)
    | some (st1, chs, none) =>
      match walkExecChildren fuel stream st1 abs depth pos 0 cs with
      | none => none
      | some (st2, chs2, r) => some (st2, chs ++ chs2, r)

def walkExecChildren (fuel : Nat) (stream : InStream) (st : GoStr × Nat)
    (pa : GoStr) (depth : Nat) (pos : List Nat) (i : Nat) :
    List Step → Option ((GoStr × Nat) × List GoStr × Option WalkErr)
  | [] => some (st, [], none)
  | c :: cs =>
    match walkExecStep fuel stream st (some pa) (depth + 1) (pos ++ [i]) c with
    | none => none
    | some (st1, chs, some err) => some (st1, chs, some err)
    | some (st1, chs, none) =>
      match walkExecChildren fuel stream st1 pa depth pos (i + 1) cs with
      | none => none
      | some (st2, chs2, r) => some (st2, chs ++ chs2, r)
end

/-- `Procedure.GetStepByName`: the walk breaks at the first step whose
absolute name matches (the callback returns an error to end the walk), so
the result is the first pre-order entry with that name. -/
def GetStepByName (root : Step) (nm : GoStr) : Option Ctx :=
  (preorder root).find? (fun e => e.abs == nm)

/-- The errors `ExecuteStep` can return. -/
inductive ExecErr where
  | checkFailed
  | noSuchStep
deriving DecidableEq

/-- `Procedure.ExecuteStep`: check the whole procedure, resolve the step,
walk it interactively with `skipTo` initially empty, *discard the walk's
return value* (the source never inspects it), print `"Done."` and return
nil.  `none` means the run never returned (prompt fuel exhausted). -/
def ExecuteStep (fuel : Nat) (stream : InStream) (root : Step)
    (stepName : GoStr) : Option (List GoStr × Option ExecErr) :=
  if (Check root).2 then some ([], some .checkFailed)
  else
    match GetStepByName root stepName with
    | none => some ([], some .noSuchStep)
    | some e =>
      match walkExecStep fuel stream ([], 0) e.par e.depth e.pos e.step with
      | none => none
      | some (_, chs, _) => some (chs ++ [doneText], none)

/-! ### The claims about the walker -/

/-- C4: the code at the failing input.  The operator enters `skipto a b`
(two arguments).  `prompt` writes the "Invalid 'skipto' syntax" message but
then *returns* after a single read (the next cursor is 1 — no re-prompt)
with the skip-to target set to `a` — the walker state changes.  `prompt`'s
own documentation promises it re-prompts until a valid choice is entered. -/
def scriptC4 : InStream := fun _ => (gs "skipto a b\n", none)

theorem c4_malformed_skipto_not_reprompted :
    prompt 3 scriptC4 0 =
      some (⟨false, gs "a"⟩, 1, [promptText, gs "\n", invalidSkiptoText]) := by
  decide

/-- An input stream on which every read fails. -/
def failStream (msg : GoStr) : InStream := fun _ => ([], some msg)

/-- The prompt loop never returns on this stream, whatever the fuel. -/
def promptNeverReturns (stream : InStream) : Prop :=
  ∀ fuel cursor, prompt fuel stream cursor = none

/-- The walk never completes (and a fortiori never returns an error). -/
def executeNeverReturns (stream : InStream) (root : Step) (nm : GoStr) : Prop :=
  ∀ fuel, ExecuteStep fuel stream root nm = none

theorem prompt_neverReturns_of_all_fail (stream : InStream) (cursor : Nat)
    (h : ∀ i, cursor ≤ i → (stream i).2 ≠ none) :
    ∀ fuel, prompt fuel stream cursor = none := by
  intro fuel
  induction fuel generalizing cursor with
  | zero => rfl
  | succ fuel ih =>
    have h0 : (stream cursor).2 ≠ none := h cursor (le_refl cursor)
    simp only [prompt]
    cases herr : (stream cursor).2 with
    | none => exact absurd herr h0
    | some msg =>
      rw [ih (cursor + 1) (fun i hi => h i (by omega))]

/-- C5, counterexample: on a stream where every read fails, the prompt loop
retries forever — it never returns for any fuel — and consequently
`ExecuteStep` on a valid procedure never completes: the walk does not abort
and no read error ever propagates to the caller (the `prompt` return type
has no error channel at all, and `ExecuteStep` discards the walk result
besides). -/
theorem walkExecStep_none_of_prompt_none (s : Step) (fuel : Nat)
    (stream : InStream) (cur : Nat) (pa : Option GoStr) (d : Nat)
    (pos : List Nat) (hpr : prompt fuel stream cur = none) :
    walkExecStep fuel stream ([], cur) pa d pos s = none := by
  cases s with
  | mk n sh lo ins outs cs =>
    have hv : execVisit fuel stream ([], cur)
        ⟨pa, absNameOf pa n, d, pos, .mk n sh lo ins outs cs⟩ = none := by
      unfold execVisit
      rw [if_neg (by simp), hpr]
    simp only [walkExecStep, hv]

theorem c5_counterexample :
    promptNeverReturns (failStream (gs "EOF")) ∧
    executeNeverReturns (failStream (gs "EOF")) procOk (gs "root") := by
  have hp : promptNeverReturns (failStream (gs "EOF")) := by
    intro fuel cursor
    exact prompt_neverReturns_of_all_fail _ cursor (fun i _ => by simp [failStream]) fuel
  refine ⟨hp, ?_⟩
  intro fuel
  have hcheck : (Check procOk).2 = false := by decide
  have hfind : GetStepByName procOk (gs "root") =
      some ⟨none, gs "root", 0, [], procOk⟩ := rfl
  have hwalk : walkExecStep fuel (failStream (gs "EOF")) ([], 0) none 0 []
      procOk = none :=
    walkExecStep_none_of_prompt_none procOk fuel (failStream (gs "EOF")) 0
      none 0 [] (hp fuel 0)
  simp only [ExecuteStep, hcheck, Bool.false_eq_true, if_false, hfind, hwalk]

/-- C5 (amended): a failed read is reported on the output stream — the
"Error reading input" message, between the prompt text and whatever the
retry produces — and the read is retried at the next cursor; if every
subsequent read fails, the loop retries forever and never returns, so the
walk neither aborts nor propagates the error. -/
theorem c5_read_error_reported_and_retried (fuel : Nat) (stream : InStream)
    (cursor : Nat) (msg : GoStr) (herr : (stream cursor).2 = some msg) :
    prompt (fuel + 1) stream cursor =
      (match prompt fuel stream (cursor + 1) with
       | none => none
       | some (res, cur, chs) =>
         some (res, cur, [promptText, gs "\n", errorReadingText msg] ++ chs)) ∧
    ((∀ i, cursor ≤ i → (stream i).2 ≠ none) →
      ∀ f, prompt f stream cursor = none) := by
  constructor
  · simp only [prompt]
    rw [show (stream cursor) = ((stream cursor).1, some msg) from by
      rw [← herr]]
  · exact fun h => prompt_neverReturns_of_all_fail stream cursor h

/-- C5, witness for the amended theorem: on the always-failing stream the
first read fails, and the loop never returns. -/
theorem c5_read_error_reported_and_retried_witness :
    (prompt 3 (failStream (gs "EOF")) 0 =
      (match prompt 2 (failStream (gs "EOF")) 1 with
       | none => none
       | some (res, cur, chs) =>
         some (res, cur, [promptText, gs "\n", errorReadingText (gs "EOF")] ++ chs))) ∧
    prompt 7 (failStream (gs "EOF")) 0 = none := by
  have h := c5_read_error_reported_and_retried 2 (failStream (gs "EOF")) 0
    (gs "EOF") (by decide)
  exact ⟨h.1, h.2 (fun i _ => by simp [failStream]) 7⟩

/-- C9: whatever the interactive walk does — in particular when it stops
early with an error, as it does whenever the operator enters `skip` (the
callback's `NoRecurse` aborts `Step.Walk`) — `ExecuteStep` ignores the
walk's return value, prints the terminal `"Done."` line and returns nil. -/
theorem c9_walk_error_discarded (fuel : Nat) (stream : InStream) (root : Step)
    (nm : GoStr) (e : Ctx) (st : GoStr × Nat) (chs : List GoStr)
    (werr : Option WalkErr)
    (hcheck : (Check root).2 = false)
    (hfind : GetStepByName root nm = some e)
    (hwalk : walkExecStep fuel stream ([], 0) e.par e.depth e.pos e.step =
      some (st, chs, werr)) :
    ExecuteStep fuel stream root nm = some (chs ++ [doneText], none) := by
  simp only [ExecuteStep, hcheck, Bool.false_eq_true, if_false, hfind, hwalk]

/-- The context of `procOk`'s root step, as `GetStepByName` resolves it. -/
def ctxRootOk : Ctx := ⟨none, gs "root", 0, [], procOk⟩

def scriptC9 : InStream := fun i =>
  if i = 0 then (gs "skip\n", none) else (gs "\n", none)

/-- C9, witness: the operator enters `skip` at the very first step, the walk
aborts with `NoRecurse`, yet `ExecuteStep` ends with `"Done."` and nil. -/
theorem c9_walk_error_discarded_witness :
    ExecuteStep 5 scriptC9 procOk (gs "root") =
      some ([renderExecStep ctxRootOk, promptText, gs "\n",
        skipOneText (gs "root"), doneText], none) :=
  c9_walk_error_discarded 5 scriptC9 procOk (gs "root") ctxRootOk
    (([] : GoStr), 1)
    [renderExecStep ctxRootOk, promptText, gs "\n", skipOneText (gs "root")]
    (some .noRecurse) (by decide) rfl rfl

mutual
/-- Once the skip-to target `X` is recorded and matches no step of the given
subtree, the walk presents each of its steps as the one-line skip notice
only, reads nothing, and finishes without error. -/
theorem walkExecStep_skipAll (s : Step) (fuel : Nat) (stream : InStream)
    (X : GoStr) (cur : Nat) (pa : Option GoStr) (d : Nat) (pos : List Nat)
    (hX : X ≠ []) (h : ∀ e ∈ preorderStep pa d pos s, e.abs ≠ X) :
    walkExecStep fuel stream (X, cur) pa d pos s =
      some ((X, cur),
        (preorderStep pa d pos s).map (fun e => skipToText e.abs X), none) := by
  cases s with
  | mk n sh lo ins outs cs =>
    have habs : absNameOf pa n ≠ X := by
      refine h ⟨pa, absNameOf pa n, d, pos, .mk n sh lo ins outs cs⟩ ?_
      simp [preorderStep]
    have hv : execVisit fuel stream (X, cur)
        ⟨pa, absNameOf pa n, d, pos, .mk n sh lo ins outs cs⟩ =
        some ((X, cur), [skipToText (absNameOf pa n) X], none) := by
      unfold execVisit
      rw [if_pos ⟨hX, habs⟩]
    have hch := walkExecChildren_skipAll cs fuel stream X cur (absNameOf pa n)
      d pos 0 hX (fun e he => h e (by
        simp only [preorderStep, List.mem_cons]
        exact Or.inr he))
    simp only [walkExecStep, hv, hch, preorderStep, List.map_cons]
    rfl

theorem walkExecChildren_skipAll (cs : List Step) (fuel : Nat)
    (stream : InStream) (X : GoStr) (cur : Nat) (pa : GoStr) (d : Nat)
    (pos : List Nat) (i : Nat) (hX : X ≠ [])
    (h : ∀ e ∈ preorderChildren pa d pos i cs, e.abs ≠ X) :
    walkExecChildren fuel stream (X, cur) pa d pos i cs =
      some ((X, cur),
        (preorderChildren pa d pos i cs).map (fun e => skipToText e.abs X),
        none) := by
  cases cs with
  | nil => simp [walkExecChildren, preorderChildren]
  | cons c cs =>
    have hc := walkExecStep_skipAll c fuel stream X cur (some pa) (d + 1)
      (pos ++ [i]) hX (fun e he => h e (by
        simp only [preorderChildren, List.mem_append]
        exact Or.inl he))
    have hcs := walkExecChildren_skipAll cs fuel stream X cur pa d pos (i + 1)
      hX (fun e he => h e (by
        simp only [preorderChildren, List.mem_append]
        exact Or.inr he))
    simp only [walkExecChildren, hc, hcs, preorderChildren, List.map_append]
end

/-- C10: the skip-to target is never validated.  If the operator's command
at the first prompt yields `skipto X` for a target `X` that matches no
subsequently visited step, then (a) the remaining walk emits exactly the
one-line skip notice for every remaining step, never reads from the
operator again (the cursor stays where the prompt left it) and finishes
without error, and (b) `ExecuteStep` completes with the skip notices,
prints `"Done."` and returns nil. -/
theorem c10_unvalidated_skipto_skips_rest (fuel : Nat) (stream : InStream)
    (root : Step) (nm X : GoStr) (pa : Option GoStr) (d : Nat)
    (pos : List Nat) (n sh lo : GoStr) (ins : List InputDef)
    (outs : List OutputDef) (cs : List Step) (cur1 : Nat) (pchs : List GoStr)
    (hcheck : (Check root).2 = false)
    (hfind : GetStepByName root nm =
      some ⟨pa, absNameOf pa n, d, pos, .mk n sh lo ins outs cs⟩)
    (hX : X ≠ [])
    (hprompt : prompt fuel stream 0 = some (⟨false, X⟩, cur1, pchs))
    (hfresh : ∀ c ∈ preorderChildren (absNameOf pa n) d pos 0 cs, c.abs ≠ X) :
    walkExecChildren fuel stream (X, cur1) (absNameOf pa n) d pos 0 cs =
      some ((X, cur1),
        (preorderChildren (absNameOf pa n) d pos 0 cs).map
          (fun c => skipToText c.abs X), none) ∧
    ExecuteStep fuel stream root nm =
      some ([renderExecStep ⟨pa, absNameOf pa n, d, pos,
          .mk n sh lo ins outs cs⟩] ++ pchs ++
        (preorderChildren (absNameOf pa n) d pos 0 cs).map
          (fun c => skipToText c.abs X) ++ [doneText], none) := by
  have hch := walkExecChildren_skipAll cs fuel stream X cur1 (absNameOf pa n)
    d pos 0 hX hfresh
  refine ⟨hch, ?_⟩
  have hv : execVisit fuel stream ([], 0)
      ⟨pa, absNameOf pa n, d, pos, .mk n sh lo ins outs cs⟩ =
      some ((X, cur1),
        [renderExecStep ⟨pa, absNameOf pa n, d, pos, .mk n sh lo ins outs cs⟩]
          ++ pchs, none) := by
    unfold execVisit
    rw [if_neg (by simp), hprompt]
    rfl
  have hwalk : walkExecStep fuel stream ([], 0) pa d pos
      (.mk n sh lo ins outs cs) =
      some ((X, cur1),
        ([renderExecStep ⟨pa, absNameOf pa n, d, pos, .mk n sh lo ins outs cs⟩]
          ++ pchs) ++
          (preorderChildren (absNameOf pa n) d pos 0 cs).map
            (fun c => skipToText c.abs X), none) := by
    simp only [walkExecStep, hv, hch]
  simp only [ExecuteStep, hcheck, Bool.false_eq_true, if_false, hfind, hwalk]

/-- A three-child linear procedure for the C10 witness. -/
def procLin : Step :=
  .mk (gs "root") (gs "r") [] [] []
    [ .mk (gs "s1") (gs "t1") [] [] [] [],
      .mk (gs "s2") (gs "t2") [] [] [] [],
      .mk (gs "s3") (gs "t3") [] [] [] [] ]

def scriptC10 : InStream := fun i =>
  if i = 0 then (gs "skipto zzz\n", none) else (gs "\n", none)

/-- C10, witness: the operator enters `skipto zzz` at the root prompt of
`procLin`; `zzz` names no step, so all three children are presented only as
skip notices and the walk ends with `"Done."` and nil. -/
theorem c10_unvalidated_skipto_skips_rest_witness :
    ExecuteStep 5 scriptC10 procLin (gs "root") =
      some ([renderExecStep ⟨none, gs "root", 0, [], procLin⟩] ++
        [promptText, gs "\n"] ++
        (preorderChildren (gs "root") 0 [] 0 procLin.children).map
          (fun c => skipToText c.abs (gs "zzz")) ++ [doneText], none) :=
  (c10_unvalidated_skipto_skips_rest 5 scriptC10 procLin (gs "root")
    (gs "zzz") none 0 [] (gs "root") (gs "r") [] [] [] procLin.children 1
    [promptText, gs "\n"] (by decide) rfl (by decide) (by decide)
    (by decide)).2

/-- The concrete three-step tree of claim C3's scenario: step `root.a` has a
descendant `root.a.x`, and `root.b` is the sibling after the skipped
subtree. -/
def procC3 : Step :=
  .mk (gs "root") (gs "r") [] [] []
    [ .mk (gs "a") (gs "sa") [] [] [] [.mk (gs "x") (gs "sx") [] [] [] []],
      .mk (gs "b") (gs "sb") [] [] [] [] ]

/-- The operator proceeds at the root, then enters `skip` at `root.a`. -/
def scriptC3 : InStream := fun i =>
  if i = 1 then (gs "skip\n", none) else (gs "\n", none)

/-- The chunks the run actually writes. -/
def outC3 : List GoStr :=
  [gs "# r", promptText, gs "\n", gs "## (0) sa", promptText, gs "\n",
    skipOneText (gs "root.a"), doneText]

/-- C3: the code at the failing input.  Entering `skip` at `root.a` prints
the "Skipping step ... and its descendants" notice and the descendant
`root.a.x` is indeed not presented — but the walk then stops entirely:
`Step.Walk` returns the callback's `NoRecurse` error immediately, so the
following sibling `root.b` is never presented either (no header, no notice,
no prompt), and the run jumps straight to `"Done."`. -/
theorem c3_skip_aborts_whole_walk :
    ExecuteStep 5 scriptC3 procC3 (gs "root") = some (outC3, none) ∧
    skipOneText (gs "root.a") ∈ outC3 ∧
    (∀ ch ∈ outC3, ch ≠ renderExecStep ⟨some (gs "root.a"), gs "root.a.x", 2,
      [0, 0], .mk (gs "x") (gs "sx") [] [] [] []⟩) ∧
    (∀ ch ∈ outC3, ch ≠ renderExecStep ⟨some (gs "root"), gs "root.b", 1,
      [1], .mk (gs "b") (gs "sb") [] [] [] []⟩) ∧
    (∀ ch ∈ outC3, ch ≠ skipToText (gs "root.b") (gs "root.b")) := by
  refine ⟨by decide, by decide, by decide, by decide, by decide⟩

end Donothing
